import Mathlib

/-!
Verification of the word-compare document-comparison core
(`src/word_compare.py`) against its specification.

The Python source is shallowly embedded: every function below mirrors one
Python function (or one inlined block of one) from the source.  Python
strings are Lean `String`s; Python lists are Lean `List`s; Python `dict`
accumulators are total functions with default `0`; exceptions are an
explicit sum type.  The external docx/pdf parsing libraries are not part of
the repository, so their outcomes are carried as fields of the modelled
upload record (see `FileStorage`).
-/

set_option maxHeartbeats 1000000
set_option maxRecDepth 8000
set_option linter.constructorNameAsVariable false

/-- Decidable equality of `Except` values (needed to evaluate concrete
pipeline runs). -/
instance {ε α : Type} [DecidableEq ε] [DecidableEq α] : DecidableEq (Except ε α) := fun x y =>
  match x, y with
  | .ok a, .ok b =>
    if h : a = b then .isTrue (by rw [h]) else .isFalse (by simp [h])
  | .ok _, .error _ => .isFalse (by simp)
  | .error _, .ok _ => .isFalse (by simp)
  | .error a, .error b =>
    if h : a = b then .isTrue (by rw [h]) else .isFalse (by simp [h])

namespace WordCompare

/-! ## Python string primitives -/

/-- Python's notion of whitespace for `str.split()` (ASCII part; the inputs
of this service are document texts, lowered to the ASCII fragment). -/
def pyWhitespace (c : Char) : Bool :=
  c == ' ' || c == '\t' || c == '\n' || c == '\r' || c == '\x0b' || c == '\x0c'

/-- Worker for `str.split()` with no separator: split on runs of whitespace,
never producing empty tokens.  `tok` is the current token, reversed. -/
def pySplitAux : List Char → List Char → List (List Char)
  | [], [] => []
  | [], tok => [tok.reverse]
  | c :: cs, tok =>
    if pyWhitespace c then
      match tok with
      | [] => pySplitAux cs []
      | _ => tok.reverse :: pySplitAux cs []
    else pySplitAux cs (c :: tok)

/-- Python `s.split()` (no argument): whitespace-run splitting, leading and
trailing whitespace discarded, no empty tokens. -/
def pySplit (s : String) : List String :=
  (pySplitAux s.data []).map String.mk

/-- Worker for `str.splitlines()`: split at `\n`, `\r\n` or `\r`, producing
no trailing empty line.  (Python also treats a few rare control characters
as line boundaries; document texts joined with `"\n"` never contain them.) -/
def pySplitLinesAux : List Char → List Char → List (List Char)
  | [], [] => []
  | [], tok => [tok.reverse]
  | '\r' :: '\n' :: cs, tok => tok.reverse :: pySplitLinesAux cs []
  | '\r' :: cs, tok => tok.reverse :: pySplitLinesAux cs []
  | '\n' :: cs, tok => tok.reverse :: pySplitLinesAux cs []
  | c :: cs, tok => pySplitLinesAux cs (c :: tok)

/-- Python `s.splitlines()`. -/
def pySplitLines (s : String) : List String :=
  (pySplitLinesAux s.data []).map String.mk

/-- Python `s.startswith(pre)`. -/
def pyStartsWith (s pre : String) : Bool :=
  pre.data.isPrefixOf s.data

/-- Python `s.endswith(suf)`. -/
def pyEndsWith (s suf : String) : Bool :=
  suf.data.isSuffixOf s.data

/-- Boolean infix test on character lists: `needle` occurs contiguously in
`hay`. -/
def listInfix : List Char → List Char → Bool
  | needle, [] => needle.isEmpty
  | needle, c :: t => needle.isPrefixOf (c :: t) || listInfix needle t

/-- Python `sub in s` (substring containment). -/
def pyContains (s sub : String) : Bool :=
  listInfix sub.data s.data

/-- Python `s.lower()` (ASCII lowering; the metadata this service inspects
is ASCII). -/
def pyLower (s : String) : String :=
  String.mk (s.data.map Char.toLower)

/-- Python `s[1:]`. -/
def pyDropFirst (s : String) : String :=
  String.mk s.data.tail

/-! ## difflib.SequenceMatcher (isjunk=None, autojunk=True)

`difflib.unified_diff(a, b, lineterm='', n=2)` runs
`SequenceMatcher(None, a, b)` and renders its grouped opcodes.  The
embedding below follows CPython's `difflib.py` step by step. -/

/-- `SequenceMatcher.__chain_b`: `b2j[x]` is the increasing list of indices
`j` with `b[j] = x` (before popularity pruning). -/
def b2jList (b : List String) (x : String) : List Nat :=
  (List.range b.length).filter (fun j => b.getD j "" == x)

/-- `b2j` after autojunk pruning: when `len(b) >= 200`, elements occurring
more than `len(b) // 100 + 1` times are "popular" and removed from `b2j`
entirely (they remain matchable by the extension loops below). -/
def b2j (b : List String) (x : String) : List Nat :=
  let js := b2jList b x
  if 200 ≤ b.length ∧ b.length / 100 + 1 < js.length then [] else js

/-- The running best match of `find_longest_match`. -/
structure FLM where
  besti : Nat
  bestj : Nat
  bestsize : Nat
deriving Repr, DecidableEq

/-- Inner loop of `find_longest_match` over the candidate columns
`b2j.get(a[i], [])` (increasing).  `old` is the previous row's `j2len`
dict (total function, absent keys are `0`; Python's lookup of key `-1`
is the `j = 0` case), `new` the current row's dict being built.
`j < blo` is Python's `continue`, `bhi ≤ j` its `break` (the list is
increasing, so breaking discards the rest). -/
def flmInner (blo bhi i : Nat) (old : Nat → Nat) :
    List Nat → (Nat → Nat) → FLM → (Nat → Nat) × FLM
  | [], new, best => (new, best)
  | j :: js, new, best =>
    if j < blo then flmInner blo bhi i old js new best
    else if bhi ≤ j then (new, best)
    else
      let k := (if j = 0 then 0 else old (j - 1)) + 1
      let new' := fun x => if x = j then k else new x
      let best' : FLM := if best.bestsize < k then ⟨i + 1 - k, j + 1 - k, k⟩ else best
      flmInner blo bhi i old js new' best'

/-- Outer loop of `find_longest_match` over rows `i ∈ range(alo, ahi)`.
Each row starts a fresh `newj2len` dict. -/
def flmLoop (a b : List String) (blo bhi : Nat) :
    List Nat → (Nat → Nat) → FLM → (Nat → Nat) × FLM
  | [], j2len, best => (j2len, best)
  | i :: is, j2len, best =>
    let st := flmInner blo bhi i j2len (b2j b (a.getD i "")) (fun _ => 0) best
    flmLoop a b blo bhi is st.1 st.2

/-- First `while` loop of `find_longest_match`: extend the match leftwards
over equal elements (the junk set is empty since `isjunk=None`).  The fuel
`besti - alo` is exact: the guard fails precisely when the fuel would run
out, so the fuelled loop equals the unbounded one. -/
def extendLeft (a b : List String) (alo blo : Nat) : Nat → FLM → FLM
  | 0, st => st
  | fuel + 1, st =>
    if alo < st.besti ∧ blo < st.bestj ∧
        a.getD (st.besti - 1) "" = b.getD (st.bestj - 1) "" then
      extendLeft a b alo blo fuel ⟨st.besti - 1, st.bestj - 1, st.bestsize + 1⟩
    else st

/-- Second `while` loop of `find_longest_match`: extend rightwards.  Fuel
`ahi - (besti + bestsize)` is exact for the same reason.  (The third and
fourth loops of CPython extend over junk elements and never run here:
`bjunk` is empty when `isjunk=None`.) -/
def extendRight (a b : List String) (ahi bhi : Nat) : Nat → FLM → FLM
  | 0, st => st
  | fuel + 1, st =>
    if st.besti + st.bestsize < ahi ∧ st.bestj + st.bestsize < bhi ∧
        a.getD (st.besti + st.bestsize) "" = b.getD (st.bestj + st.bestsize) "" then
      extendRight a b ahi bhi fuel ⟨st.besti, st.bestj, st.bestsize + 1⟩
    else st

/-- `SequenceMatcher.find_longest_match(alo, ahi, blo, bhi)`. -/
def find_longest_match (a b : List String) (alo ahi blo bhi : Nat) : Nat × Nat × Nat :=
  let st0 := (flmLoop a b blo bhi (List.range' alo (ahi - alo)) (fun _ => 0) ⟨alo, blo, 0⟩).2
  let st1 := extendLeft a b alo blo (st0.besti - alo) st0
  let st2 := extendRight a b ahi bhi (ahi - (st1.besti + st1.bestsize)) st1
  (st2.besti, st2.bestj, st2.bestsize)

/-- The recursive region splitting of `get_matching_blocks`.  CPython keeps
the pending regions on a stack and sorts the collected blocks at the end;
since the sub-regions of a region have disjoint, ordered index ranges, the
depth-first left-to-right recursion below produces the same sorted list.
Fuel bounds the recursion depth; every level strictly shrinks the region
(the match has size ≥ 1), so `a.length + b.length + 1` fuel always
suffices. -/
def mbRec (a b : List String) : Nat → Nat → Nat → Nat → Nat → List (Nat × Nat × Nat)
  | 0, _, _, _, _ => []
  | fuel + 1, alo, ahi, blo, bhi =>
    let m := find_longest_match a b alo ahi blo bhi
    let i := m.1
    let j := m.2.1
    let k := m.2.2
    if k = 0 then []
    else
      (if alo < i ∧ blo < j then mbRec a b fuel alo i blo j else []) ++
      (i, j, k) ::
      (if i + k < ahi ∧ j + k < bhi then mbRec a b fuel (i + k) ahi (j + k) bhi else [])

/-- The adjacent-block merging pass of `get_matching_blocks`: `acc` is the
running block `(i1, j1, k1)` (initially `(0, 0, 0)`), `out` the emitted
non-adjacent blocks. -/
def mergeGo : List (Nat × Nat × Nat) → Nat × Nat × Nat → List (Nat × Nat × Nat) →
    List (Nat × Nat × Nat)
  | [], acc, out => out ++ (if acc.2.2 ≠ 0 then [acc] else [])
  | blk :: tl, acc, out =>
    if acc.1 + acc.2.2 = blk.1 ∧ acc.2.1 + acc.2.2 = blk.2.1 then
      mergeGo tl (acc.1, acc.2.1, acc.2.2 + blk.2.2) out
    else
      mergeGo tl blk (out ++ (if acc.2.2 ≠ 0 then [acc] else []))

/-- `SequenceMatcher.get_matching_blocks`: recursively found blocks, merged,
with the `(la, lb, 0)` sentinel appended. -/
def get_matching_blocks (a b : List String) : List (Nat × Nat × Nat) :=
  mergeGo (mbRec a b (a.length + b.length + 1) 0 a.length 0 b.length) (0, 0, 0) []
    ++ [(a.length, b.length, 0)]

/-- Opcode tags of `SequenceMatcher.get_opcodes`. -/
inductive Tag
  | replace
  | delete
  | insert
  | equal
deriving Repr, DecidableEq

/-- One `(tag, i1, i2, j1, j2)` opcode. -/
structure Opcode where
  tag : Tag
  i1 : Nat
  i2 : Nat
  j1 : Nat
  j2 : Nat
deriving Repr, DecidableEq

/-- The fold of `get_opcodes` over the matching blocks, with the `(i, j)`
cursor. -/
def opcodesGo : List (Nat × Nat × Nat) → Nat → Nat → List Opcode
  | [], _, _ => []
  | (ai, bj, size) :: tl, i, j =>
    (if i < ai ∧ j < bj then [⟨.replace, i, ai, j, bj⟩]
     else if i < ai then [⟨.delete, i, ai, j, bj⟩]
     else if j < bj then [⟨.insert, i, ai, j, bj⟩]
     else []) ++
    (if size ≠ 0 then [⟨.equal, ai, ai + size, bj, bj + size⟩] else []) ++
    opcodesGo tl (ai + size) (bj + size)

/-- `SequenceMatcher.get_opcodes`. -/
def get_opcodes (a b : List String) : List Opcode :=
  opcodesGo (get_matching_blocks a b) 0 0

/-- `get_grouped_opcodes`: trim a leading `equal` opcode to `n` context
lines. -/
def fixHead (n : Nat) : List Opcode → List Opcode
  | [] => []
  | c :: tl =>
    if c.tag = Tag.equal then
      ⟨.equal, max c.i1 (c.i2 - n), c.i2, max c.j1 (c.j2 - n), c.j2⟩ :: tl
    else c :: tl

/-- `get_grouped_opcodes`: trim a trailing `equal` opcode to `n` context
lines. -/
def fixTail (n : Nat) (codes : List Opcode) : List Opcode :=
  match codes.getLast? with
  | none => []
  | some c =>
    if c.tag = Tag.equal then
      codes.dropLast ++ [⟨.equal, c.i1, min c.i2 (c.i1 + n), c.j1, min c.j2 (c.j1 + n)⟩]
    else codes

/-- One step of the grouping fold: a large `equal` range (more than
`2 * n` lines) closes the current group with `n` trailing context lines
and opens the next group with `n` leading context lines. -/
def groupStep (n : Nat) (st : List (List Opcode) × List Opcode) (c : Opcode) :
    List (List Opcode) × List Opcode :=
  if c.tag = Tag.equal ∧ n + n < c.i2 - c.i1 then
    (st.1 ++ [st.2 ++ [⟨.equal, c.i1, min c.i2 (c.i1 + n), c.j1, min c.j2 (c.j1 + n)⟩]],
     [⟨.equal, max c.i1 (c.i2 - n), c.i2, max c.j1 (c.j2 - n), c.j2⟩])
  else (st.1, st.2 ++ [c])

/-- Python `len(group) == 1 and group[0][0] == 'equal'`. -/
def isSingleEqual : List Opcode → Bool
  | [c] => decide (c.tag = Tag.equal)
  | _ => false

/-- `SequenceMatcher.get_grouped_opcodes(n)`: a trailing group consisting of
a single `equal` opcode is not emitted (this is what makes the diff of two
identical texts empty). -/
def get_grouped_opcodes (a b : List String) (n : Nat) : List (List Opcode) :=
  let codes0 := get_opcodes a b
  let codes1 := if codes0 = [] then [⟨Tag.equal, 0, 1, 0, 1⟩] else codes0
  let codes2 := fixTail n (fixHead n codes1)
  let st := codes2.foldl (groupStep n) ([], [])
  st.1 ++ (if st.2 ≠ [] ∧ isSingleEqual st.2 = false then [st.2] else [])

/-! ## unified_diff rendering

Each yielded line of `difflib.unified_diff` is factored as a role (its
position in the edit script) plus its payload; `renderEntry` produces
exactly the string the Python generator yields. -/

/-- The role of a line in the unified-diff output. -/
inductive Role
  | header
  | hunk
  | removed
  | added
  | context
deriving Repr, DecidableEq

/-- The literal diff-script line for an entry. -/
def renderEntry : Role × String → String
  | (.header, t) => t
  | (.hunk, t) => t
  | (.removed, t) => "-" ++ t
  | (.added, t) => "+" ++ t
  | (.context, t) => " " ++ t

/-- `difflib._format_range_unified`. -/
def formatRangeUnified (start stop : Nat) : String :=
  let beginning := start + 1
  let length := stop - start
  if length = 1 then toString beginning
  else if length = 0 then toString start ++ "," ++ toString length
  else toString beginning ++ "," ++ toString length

/-- Python `a[i1:i2]`. -/
def listSlice (l : List String) (i1 i2 : Nat) : List String :=
  (l.drop i1).take (i2 - i1)

/-- The lines one opcode contributes to the diff: `equal` yields context
from `a`, `replace` the removed `a`-slice then the added `b`-slice,
`delete` only removals, `insert` only additions. -/
def opEntries (a b : List String) (c : Opcode) : List (Role × String) :=
  match c.tag with
  | .equal => (listSlice a c.i1 c.i2).map (fun t => (Role.context, t))
  | .replace =>
    (listSlice a c.i1 c.i2).map (fun t => (Role.removed, t)) ++
    (listSlice b c.j1 c.j2).map (fun t => (Role.added, t))
  | .delete => (listSlice a c.i1 c.i2).map (fun t => (Role.removed, t))
  | .insert => (listSlice b c.j1 c.j2).map (fun t => (Role.added, t))

/-- The `@@ -… +… @@` hunk header of a group (groups are never empty). -/
def hunkHeader (g : List Opcode) : String :=
  match g.head?, g.getLast? with
  | some first, some last =>
    "@@ -" ++ formatRangeUnified first.i1 last.i2 ++
    " +" ++ formatRangeUnified first.j1 last.j2 ++ " @@"
  | _, _ => "@@ @@"

/-- The entries of one group: hunk header, then the opcode lines. -/
def groupEntries (a b : List String) (g : List Opcode) : List (Role × String) :=
  (Role.hunk, hunkHeader g) :: (g.map (opEntries a b)).flatten

/-- All entries of `unified_diff(a, b, lineterm='', n=2)`: the two file
headers (here `'--- '` and `'+++ '`, since `fromfile = tofile = ''`) are
yielded once, before the first group, and only if there is a group. -/
def unifiedDiffEntries (a b : List String) : List (Role × String) :=
  let groups := get_grouped_opcodes a b 2
  if groups = [] then []
  else (Role.header, "--- ") :: (Role.header, "+++ ") ::
    (groups.map (groupEntries a b)).flatten

/-- The lines yielded by `difflib.unified_diff(a, b, lineterm='', n=2)`. -/
def unified_diff (originalLines finalLines : List String) : List String :=
  (unifiedDiffEntries originalLines finalLines).map renderEntry

/-! ## Diff classification and HTML rendering
(`generate_email_friendly_diff`, source lines 36–76) -/

/-- Segment kinds of the spec's Diff Segment data model. -/
inductive SegKind
  | unchanged
  | removed
  | added
deriving Repr, DecidableEq

/-- A Diff Segment: a kind plus the literal line content. -/
structure Segment where
  kind : SegKind
  text : String
deriving Repr, DecidableEq

/-- The per-line classification of the rendering loop (source lines 53–70):
skip lines starting with `---`, `+++` or `@@`; then `-`, `+` and space
lines become removed / added / unchanged segments carrying `line[1:]`. -/
def classifyLine (line : String) : Option Segment :=
  if pyStartsWith line "---" || pyStartsWith line "+++" || pyStartsWith line "@@" then none
  else if pyStartsWith line "-" then some ⟨.removed, pyDropFirst line⟩
  else if pyStartsWith line "+" then some ⟨.added, pyDropFirst line⟩
  else if pyStartsWith line " " then some ⟨.unchanged, pyDropFirst line⟩
  else none

/-- The ordered Diff Segment sequence the classification loop produces for
a pair of normalized texts. -/
def diffSegments (original_text final_text : String) : List Segment :=
  (unified_diff (pySplitLines original_text) (pySplitLines final_text)).filterMap classifyLine

/-- The fixed wrapper `<div>` opening the report. -/
def htmlHeader : String :=
  "<div style=\"font-family:Arial,sans-serif;font-size:14px;line-height:1.8;max-width:100%;overflow-x:auto;\">"

/-- The REMOVED line markup. -/
def removedDiv (t : String) : String :=
  "<div style=\"background:#ffcccc;padding:10px;margin:5px 0;border-left:4px solid #cc0000;word-wrap:break-word;\"><strong>REMOVED:</strong> " ++ t ++ "</div>"

/-- The ADDED line markup. -/
def addedDiv (t : String) : String :=
  "<div style=\"background:#ccffcc;padding:10px;margin:5px 0;border-left:4px solid #00cc00;word-wrap:break-word;\"><strong>ADDED:</strong> " ++ t ++ "</div>"

/-- The unchanged-context line markup. -/
def contextDiv (t : String) : String :=
  "<div style=\"color:#666;padding:5px 10px;word-wrap:break-word;\">" ++ t ++ "</div>"

/-- The explicit no-changes indicator. -/
def noChangesP : String :=
  "<p style=\"color:#666;font-style:italic;\">No text changes detected between versions.</p>"

/-- The rendering loop over the diff lines: returns the generated html
parts and the final `change_count`. -/
def renderLoop : List String → Nat → List String × Nat
  | [], cnt => ([], cnt)
  | line :: rest, cnt =>
    if pyStartsWith line "---" || pyStartsWith line "+++" || pyStartsWith line "@@" then
      renderLoop rest cnt
    else if pyStartsWith line "-" then
      let r := renderLoop rest (cnt + 1)
      (removedDiv (pyDropFirst line) :: r.1, r.2)
    else if pyStartsWith line "+" then
      let r := renderLoop rest (cnt + 1)
      (addedDiv (pyDropFirst line) :: r.1, r.2)
    else if pyStartsWith line " " then
      let r := renderLoop rest cnt
      (contextDiv (pyDropFirst line) :: r.1, r.2)
    else renderLoop rest cnt

/-- `generate_email_friendly_diff(original_text, final_text)` (source lines
36–76): split into lines, diff, classify and render; when no removed or
added line was rendered, append the no-changes paragraph. -/
def generate_email_friendly_diff (original_text final_text : String) : String :=
  let original_lines := pySplitLines original_text
  let final_lines := pySplitLines final_text
  let diff := unified_diff original_lines final_lines
  let r := renderLoop diff 0
  String.intercalate "\n"
    (htmlHeader :: r.1 ++ (if r.2 = 0 then [noChangesP] else []) ++ ["</div>"])

/-! ## Format detection, extraction and the request pipeline -/

/-- The two supported format families. -/
inductive Fmt
  | docx
  | pdf
deriving Repr, DecidableEq

/-- The detection conditionals inlined in `extract_text` (source lines
29–34): the docx test (suffix `.docx`, or the docx media-type signature as
a substring of the declared media type) is tried first, then the pdf test;
both on the lowercased metadata. -/
def detectFormat (filename content_type : Option String) : Option Fmt :=
  let fn := pyLower (filename.getD "")
  let ct := pyLower (content_type.getD "")
  if pyEndsWith fn ".docx" || pyContains ct "wordprocessingml.document" then some .docx
  else if pyEndsWith fn ".pdf" || pyContains ct "pdf" then some .pdf
  else none

/-- The detection policy as the specification words it (spec §4.1): the
filename suffix, matched case-insensitively against the supported
extension set, decides first; the media-type signature is consulted only
when no suffix matched; otherwise detection fails.  This definition exists
only to be compared with `detectFormat` above. -/
def detectFormatSpec (filename content_type : Option String) : Option Fmt :=
  let fn := pyLower (filename.getD "")
  let ct := pyLower (content_type.getD "")
  if pyEndsWith fn ".docx" then some .docx
  else if pyEndsWith fn ".pdf" then some .pdf
  else if pyContains ct "wordprocessingml.document" then some .docx
  else if pyContains ct "pdf" then some .pdf
  else none

/-- A Python exception, as far as the `except` clauses of
`compare_documents` distinguish them: `ValueError` (raised by
`extract_text` for an unsupported format) versus every other exception
(those escaping the parsing libraries). -/
inductive PyExn
  | valueError (msg : String)
  | otherExn (msg : String)
deriving Repr, DecidableEq

/-- An uploaded file: the two metadata hints, plus the buffer.  The buffer
bytes themselves are opaque; what the pipeline observes of them is the
outcome of handing them to the two external parsers, so the buffer is
modelled by those two outcomes.  Modelled from the spec: the docx parser
yields the ordered paragraph texts (an empty paragraph contributing `""`),
the pdf parser the ordered per-page best-effort texts (a page with no
extractable text contributing `""`, matching `page.extract_text() or ""`);
a malformed buffer makes the parser fail with a parse error, which is not
a `ValueError`. -/
structure FileStorage where
  filename : Option String
  content_type : Option String
  docxParagraphs : Except String (List String)
  pdfPages : Except String (List String)

/-- `extract_text_from_docx`: join the paragraph texts with `"\n"`. -/
def extract_text_from_docx (fs : FileStorage) : Except PyExn String :=
  match fs.docxParagraphs with
  | .ok ps => .ok (String.intercalate "\n" ps)
  | .error e => .error (.otherExn e)

/-- `extract_text_from_pdf`: join the page texts with `"\n"`. -/
def extract_text_from_pdf (fs : FileStorage) : Except PyExn String :=
  match fs.pdfPages with
  | .ok pages => .ok (String.intercalate "\n" pages)
  | .error e => .error (.otherExn e)

/-- `extract_text` (source lines 23–34): detect the format from the
lowercased metadata, dispatch to the extractor, or raise
`ValueError(f"Unsupported file type: {filename or content_type}")`. -/
def extract_text (fs : FileStorage) : Except PyExn String :=
  let fn := pyLower (fs.filename.getD "")
  let ct := pyLower (fs.content_type.getD "")
  match detectFormat fs.filename fs.content_type with
  | some .docx => extract_text_from_docx fs
  | some .pdf => extract_text_from_pdf fs
  | none => .error (.valueError ("Unsupported file type: " ++ (if fn ≠ "" then fn else ct)))

/-- The response of the `/compare` route, as the core determines it:
success with the markup and the three statistics, or HTTP 400 with a
message (the `except ValueError` clause), or HTTP 500 with a message (the
generic `except Exception` clause). -/
inductive Response
  | success (html_diff : String) (original_words final_words : Nat) (word_difference : Int)
  | clientError (error : String)
  | serverError (error : String)
deriving Repr, DecidableEq

/-- The `try` body of `compare_documents` (source lines 88–105): extract
both texts, render the diff, count whitespace-split words of the full
texts, and report `final_words - original_words`. -/
def comparePipeline (o f : FileStorage) : Except PyExn Response := do
  let original_text ← extract_text o
  let final_text ← extract_text f
  let html_diff := generate_email_friendly_diff original_text final_text
  let original_words := (pySplit original_text).length
  let final_words := (pySplit final_text).length
  pure (.success html_diff original_words final_words
    ((final_words : Int) - (original_words : Int)))

/-- `compare_documents` (source lines 78–110): the `except` clauses map a
`ValueError` to a 400 response and any other exception to a 500 response,
each carrying `str(e)`. -/
def compare_documents (o f : FileStorage) : Response :=
  match comparePipeline o f with
  | .ok r => r
  | .error (.valueError m) => .clientError m
  | .error (.otherExn m) => .serverError m

/-- The segment-to-entry correspondence: which entries of the structured
diff script survive classification, and as what.  A removed line whose
content itself begins with `--` renders as `---…` and is skipped by the
header filter; an added line whose content begins with `++` renders as
`+++…` and is likewise skipped. -/
def entrySegment : Role × String → Option Segment
  | (.header, _) => none
  | (.hunk, _) => none
  | (.removed, t) => if pyStartsWith t "--" then none else some ⟨.removed, t⟩
  | (.added, t) => if pyStartsWith t "++" then none else some ⟨.added, t⟩
  | (.context, t) => some ⟨.unchanged, t⟩

/-- The texts of the segments whose kind lies in `ks`, in order. -/
def segTexts (ks : List SegKind) (segs : List Segment) : List String :=
  (segs.filter (fun s => s.kind ∈ ks)).map Segment.text

/-- The exact report markup for two texts with no rendered change. -/
def noChangesHtml : String :=
  htmlHeader ++ "\n" ++ noChangesP ++ "\n</div>"

/-- The parse outcome a buffer has under a given recognized format. -/
def parseOutcome (fs : FileStorage) : Fmt → Except String (List String)
  | .docx => fs.docxParagraphs
  | .pdf => fs.pdfPages

/-- The chain value the `j2len` dicts of `find_longest_match` compute when
a line sequence is diffed against itself over the full window:
`selfChain b r j` is the value stored at column `j` after processing row
`r` (and `0` when column `j` is not a candidate of row `r`). -/
def selfChain (b : List String) : Nat → Nat → Nat
  | 0, j => if (b2j b (b.getD 0 "")).contains j then 1 else 0
  | r + 1, j =>
    if (b2j b (b.getD (r + 1) "")).contains j then
      (if j = 0 then 0 else selfChain b r (j - 1)) + 1
    else 0

/-- The `j2len` dict entering row `r` of the self-comparison. -/
def prevFn (b : List String) : Nat → Nat → Nat
  | 0 => fun _ => 0
  | r + 1 => fun j => selfChain b r j

/-- Well-formedness of a diff-script entry as `unified_diff` produces
them: header payloads are the two literal file-header lines, hunk payloads
start with `@@`. -/
def entryWf : Role × String → Prop
  | (.header, t) => t = "--- " ∨ t = "+++ "
  | (.hunk, t) => pyStartsWith t "@@" = true
  | _ => True

/-- Invariant of a `j2len` dict entering row `i` of
`find_longest_match(alo, ahi, blo, bhi)`: every nonzero entry `f j`
records a match run of that length ending at row `i - 1`, column `j`,
lying inside the window. -/
def DictGe (a b : List String) (alo blo : Nat) (i : Nat) (f : Nat → Nat) : Prop :=
  ∀ j, f j ≠ 0 →
    f j ≤ i - alo ∧ f j ≤ j + 1 - blo ∧ blo ≤ j ∧
    ∀ t, t < f j → a.getD (i - 1 - t) "" = b.getD (j - t) ""

/-- Invariant of the running best match: a nonzero best is a genuine
in-window match, and a zero best is still the initial state. -/
def BestInv (a b : List String) (alo ahi blo bhi : Nat) (st : FLM) : Prop :=
  (st.bestsize = 0 → st.besti = alo ∧ st.bestj = blo) ∧
  (st.bestsize ≠ 0 →
    alo ≤ st.besti ∧ blo ≤ st.bestj ∧ st.besti + st.bestsize ≤ ahi ∧
      st.bestj + st.bestsize ≤ bhi ∧
      ∀ t, t < st.bestsize → a.getD (st.besti + t) "" = b.getD (st.bestj + t) "")

/-- `chainedTo a b lo jlo blocks hi jhi`: matching blocks in increasing,
non-overlapping position order starting at cursor `(lo, jlo)` and ending
at or before `(hi, jhi)`; every block is an in-bounds genuine match. -/
def chainedTo (a b : List String) : Nat → Nat → List (Nat × Nat × Nat) → Nat → Nat → Prop
  | lo, jlo, [], hi, jhi => lo ≤ hi ∧ jlo ≤ jhi
  | lo, jlo, (i, j, k) :: tl, hi, jhi =>
    lo ≤ i ∧ jlo ≤ j ∧ i + k ≤ a.length ∧ j + k ≤ b.length ∧
    (∀ t, t < k → a.getD (i + t) "" = b.getD (j + t) "") ∧
    chainedTo a b (i + k) (j + k) tl hi jhi

/-- `opChainTo a b ci cj ops hi hj`: opcodes with weakly increasing,
in-bounds ranges from cursor `(ci, cj)` to at most `(hi, hj)`; an `equal`
opcode relates ranges of equal length with pointwise equal lines. -/
def opChainTo (a b : List String) : Nat → Nat → List Opcode → Nat → Nat → Prop
  | ci, cj, [], hi, hj => ci ≤ hi ∧ cj ≤ hj
  | ci, cj, c :: tl, hi, hj =>
    ci ≤ c.i1 ∧ c.i1 ≤ c.i2 ∧ c.i2 ≤ a.length ∧
    cj ≤ c.j1 ∧ c.j1 ≤ c.j2 ∧ c.j2 ≤ b.length ∧
    (c.tag = Tag.equal → c.i2 - c.i1 = c.j2 - c.j1 ∧
      ∀ t, t < c.i2 - c.i1 → a.getD (c.i1 + t) "" = b.getD (c.j1 + t) "") ∧
    opChainTo a b c.i2 c.j2 tl hi hj

/-- The lines of the original sequence an opcode emits (as removed or
context lines). -/
def opASlice (a : List String) (c : Opcode) : List String :=
  match c.tag with
  | .equal => listSlice a c.i1 c.i2
  | .replace => listSlice a c.i1 c.i2
  | .delete => listSlice a c.i1 c.i2
  | .insert => []

/-- The lines an opcode emits that belong to the final sequence's
narrative (context and added lines); `equal` context is echoed from the
original sequence's slice, which the matching condition makes equal to
the corresponding slice of the final sequence. -/
def opBPayload (a b : List String) (c : Opcode) : List String :=
  match c.tag with
  | .equal => listSlice a c.i1 c.i2
  | .replace => listSlice b c.j1 c.j2
  | .delete => []
  | .insert => listSlice b c.j1 c.j2

/-- The text an entry contributes towards reconstructing the original
sequence: removed and context lines carry original-sequence text. -/
def entryAPayload : Role × String → List String
  | (Role.removed, t) => [t]
  | (Role.context, t) => [t]
  | _ => []

/-- The text an entry contributes towards reconstructing the final
sequence: added and context lines carry final-sequence text. -/
def entryBPayload : Role × String → List String
  | (Role.added, t) => [t]
  | (Role.context, t) => [t]
  | _ => []

/-! ## The classifier on rendered diff-script entries -/

theorem classifyLine_hunk (t : String) (h : pyStartsWith t "@@" = true) :
    classifyLine t = none := by
  obtain ⟨cs⟩ := t
  have hcs : ∃ rest, cs = '@' :: '@' :: rest := by
    rw [pyStartsWith, List.isPrefixOf_iff_prefix] at h
    obtain ⟨rest, hrest⟩ := h
    exact ⟨rest, by simpa using hrest.symm⟩
  obtain ⟨rest, hrest⟩ := hcs
  subst hrest
  simp [classifyLine, pyStartsWith, List.isPrefixOf_cons₂]

theorem classifyLine_removed (t : String) :
    classifyLine ("-" ++ t) = entrySegment (Role.removed, t) := by
  obtain ⟨cs⟩ := t
  show classifyLine (String.mk ('-' :: cs)) = entrySegment (Role.removed, String.mk cs)
  cases h : List.isPrefixOf ['-', '-'] cs <;>
    simp [classifyLine, entrySegment, pyStartsWith, pyDropFirst, List.isPrefixOf_cons₂, h]

theorem classifyLine_added (t : String) :
    classifyLine ("+" ++ t) = entrySegment (Role.added, t) := by
  obtain ⟨cs⟩ := t
  show classifyLine (String.mk ('+' :: cs)) = entrySegment (Role.added, String.mk cs)
  cases h : List.isPrefixOf ['+', '+'] cs <;>
    simp [classifyLine, entrySegment, pyStartsWith, pyDropFirst, List.isPrefixOf_cons₂, h]

theorem classifyLine_context (t : String) :
    classifyLine (" " ++ t) = entrySegment (Role.context, t) := by
  obtain ⟨cs⟩ := t
  show classifyLine (String.mk (' ' :: cs)) = entrySegment (Role.context, String.mk cs)
  simp [classifyLine, entrySegment, pyStartsWith, pyDropFirst, List.isPrefixOf_cons₂]

theorem classify_renderEntry (e : Role × String) (hw : entryWf e) :
    classifyLine (renderEntry e) = entrySegment e := by
  obtain ⟨r, t⟩ := e
  cases r with
  | header => rcases hw with h | h <;> subst h <;> decide
  | hunk => exact classifyLine_hunk t hw
  | removed => exact classifyLine_removed t
  | added => exact classifyLine_added t
  | context => exact classifyLine_context t

theorem filterMap_classify (es : List (Role × String)) (h : ∀ e ∈ es, entryWf e) :
    (es.map renderEntry).filterMap classifyLine = es.filterMap entrySegment := by
  induction es with
  | nil => rfl
  | cons e tl ih =>
    rw [List.map_cons, List.filterMap_cons, List.filterMap_cons,
      classify_renderEntry e (h e (by simp))]
    have ih' := ih (fun x hx => h x (by simp [hx]))
    cases entrySegment e <;> simp [ih']

theorem hunkHeader_wf (g : List Opcode) : pyStartsWith (hunkHeader g) "@@" = true := by
  rw [hunkHeader]
  cases g.head? <;> cases g.getLast? <;>
    simp [pyStartsWith, List.isPrefixOf_cons₂]

theorem unifiedDiffEntries_wf (a b : List String) :
    ∀ e ∈ unifiedDiffEntries a b, entryWf e := by
  intro e he
  rw [unifiedDiffEntries] at he
  split at he
  · simp at he
  · simp only [List.mem_cons, List.mem_flatten, List.mem_map] at he
    rcases he with he | he | ⟨l, ⟨g, hgmem, hg⟩, hel⟩
    · subst he; exact Or.inl rfl
    · subst he; exact Or.inr rfl
    · subst hg
      rw [groupEntries] at hel
      simp only [List.mem_cons, List.mem_flatten, List.mem_map] at hel
      rcases hel with hel | ⟨l', ⟨op, hopmem, hop⟩, hel'⟩
      · subst hel; exact hunkHeader_wf g
      · subst hop
        cases htag : op.tag with
        | replace =>
          simp [opEntries, htag] at hel'
          rcases hel' with ⟨t, -, rfl⟩ | ⟨t, -, rfl⟩ <;> trivial
        | delete =>
          simp [opEntries, htag] at hel'
          obtain ⟨t, -, rfl⟩ := hel'
          trivial
        | insert =>
          simp [opEntries, htag] at hel'
          obtain ⟨t, -, rfl⟩ := hel'
          trivial
        | equal =>
          simp [opEntries, htag] at hel'
          obtain ⟨t, -, rfl⟩ := hel'
          trivial

/-! ## Diffing a line sequence against itself

The central fact behind the empty diff of identical texts:
`find_longest_match` on the full self-comparison window returns the whole
sequence.  The main loop's best match always lies on the diagonal, and the
extension loops then stretch any diagonal match to the full range. -/

theorem mem_b2jList (b : List String) (x : String) (j : Nat) :
    j ∈ b2jList b x ↔ j < b.length ∧ b.getD j "" = x := by
  rw [b2jList, List.mem_filter, List.mem_range, beq_iff_eq]

theorem b2j_eq_nil_or (b : List String) (x : String) :
    b2j b x = [] ∨ b2j b x = b2jList b x := by
  rw [b2j]
  split
  · exact Or.inl rfl
  · exact Or.inr rfl

theorem mem_of_mem_b2j (b : List String) (x : String) (j : Nat) (h : j ∈ b2j b x) :
    j < b.length ∧ b.getD j "" = x := by
  rcases b2j_eq_nil_or b x with hn | he
  · rw [hn] at h
    simp at h
  · rw [he, mem_b2jList] at h
    exact h

theorem b2j_pairwise (b : List String) (x : String) : (b2j b x).Pairwise (· < ·) := by
  rcases b2j_eq_nil_or b x with hn | he
  · rw [hn]
    exact List.Pairwise.nil
  · rw [he, b2jList]
    exact List.Pairwise.sublist (List.filter_sublist _) (List.pairwise_lt_range _)

theorem contains_iff_mem_b2j (b : List String) (x : String) (j : Nat) :
    (b2j b x).contains j = true ↔ j ∈ b2j b x :=
  List.elem_iff

theorem contains_b2j_symm (b : List String) (r j : Nat)
    (hr : r < b.length) (hj : j < b.length) :
    (b2j b (b.getD r "")).contains j = (b2j b (b.getD j "")).contains r := by
  by_cases hv : b.getD r "" = b.getD j ""
  · rw [hv]
    rcases b2j_eq_nil_or b (b.getD j "") with hn | he
    · rw [hn]
      rfl
    · have h1 : (b2j b (b.getD j "")).contains j = true := by
        rw [contains_iff_mem_b2j, he, mem_b2jList]
        exact ⟨hj, rfl⟩
      have h2 : (b2j b (b.getD j "")).contains r = true := by
        rw [contains_iff_mem_b2j, he, mem_b2jList]
        exact ⟨hr, hv⟩
      rw [h1, h2]
  · have h1 : (b2j b (b.getD r "")).contains j = false := by
      rw [Bool.eq_false_iff]
      intro hc
      rw [contains_iff_mem_b2j] at hc
      exact hv ((mem_of_mem_b2j _ _ _ hc).2.symm)
    have h2 : (b2j b (b.getD j "")).contains r = false := by
      rw [Bool.eq_false_iff]
      intro hc
      rw [contains_iff_mem_b2j] at hc
      exact hv (mem_of_mem_b2j _ _ _ hc).2
    rw [h1, h2]

theorem contains_b2j_diag (b : List String) (r j : Nat) (hr : r < b.length)
    (hc : (b2j b (b.getD r "")).contains j = true) :
    (b2j b (b.getD r "")).contains r = true := by
  rw [contains_iff_mem_b2j] at hc ⊢
  rcases b2j_eq_nil_or b (b.getD r "") with hn | he
  · rw [hn] at hc
    simp at hc
  · rw [he, mem_b2jList]
    exact ⟨hr, rfl⟩

theorem selfChain_le (b : List String) : ∀ r j, selfChain b r j ≤ r + 1 := by
  intro r
  induction r with
  | zero =>
    intro j
    rw [selfChain]
    split <;> omega
  | succ r ih =>
    intro j
    rw [selfChain]
    split
    · split
      · omega
      · have := ih (j - 1)
        omega
    · omega

theorem selfChain_eq_zero (b : List String) (r j : Nat)
    (hc : ¬ (b2j b (b.getD r "")).contains j = true) : selfChain b r j = 0 := by
  cases r <;> rw [selfChain] <;> rw [if_neg hc]

theorem selfChain_step (b : List String) (r j : Nat)
    (hc : (b2j b (b.getD r "")).contains j = true) :
    selfChain b r j = (if j = 0 then 0 else prevFn b r (j - 1)) + 1 := by
  cases r with
  | zero =>
    rw [selfChain, if_pos hc]
    by_cases hj : j = 0 <;> simp [prevFn, hj]
  | succ r =>
    rw [selfChain, if_pos hc]
    rfl

theorem selfChain_le_diag (b : List String) :
    ∀ r, r < b.length → ∀ j, selfChain b r j ≤ selfChain b r r := by
  intro r
  induction r with
  | zero =>
    intro hr j
    by_cases hc : (b2j b (b.getD 0 "")).contains j = true
    · have hd := contains_b2j_diag b 0 j hr hc
      rw [selfChain_step b 0 j hc, selfChain_step b 0 0 hd]
      by_cases hj : j = 0 <;> simp [prevFn, hj]
    · rw [selfChain_eq_zero b 0 j hc]
      exact Nat.zero_le _
  | succ r ih =>
    intro hr j
    by_cases hc : (b2j b (b.getD (r + 1) "")).contains j = true
    · have hd := contains_b2j_diag b (r + 1) j hr hc
      rw [selfChain_step b (r + 1) j hc, selfChain_step b (r + 1) (r + 1) hd]
      simp only [prevFn, Nat.succ_sub_one, if_neg (Nat.succ_ne_zero r)]
      have hr' : r < b.length := Nat.lt_of_succ_lt hr
      by_cases hj : j = 0
      · simp [hj]
      · rw [if_neg hj]
        have h2 := ih hr' (j - 1)
        omega
    · rw [selfChain_eq_zero b _ j hc]
      exact Nat.zero_le _

theorem selfChain_symm (b : List String) :
    ∀ r j, r < b.length → j < b.length → selfChain b r j = selfChain b j r := by
  intro r
  induction r with
  | zero =>
    intro j h0 hj
    cases j with
    | zero => rfl
    | succ j' =>
      have hsym := contains_b2j_symm b 0 (j' + 1) h0 hj
      by_cases hc : (b2j b (b.getD 0 "")).contains (j' + 1) = true
      · have hc' : (b2j b (b.getD (j' + 1) "")).contains 0 = true := by
          rw [← hsym]
          exact hc
        rw [selfChain_step _ _ _ hc, selfChain_step _ _ _ hc']
        simp [prevFn]
      · have hc' : ¬ (b2j b (b.getD (j' + 1) "")).contains 0 = true := by
          rw [← hsym]
          exact hc
        rw [selfChain_eq_zero _ _ _ hc, selfChain_eq_zero _ _ _ hc']
  | succ r ih =>
    intro j hr hj
    cases j with
    | zero =>
      have hsym := contains_b2j_symm b (r + 1) 0 hr hj
      by_cases hc : (b2j b (b.getD (r + 1) "")).contains 0 = true
      · have hc' : (b2j b (b.getD 0 "")).contains (r + 1) = true := by
          rw [← hsym]
          exact hc
        rw [selfChain_step _ _ _ hc, selfChain_step _ _ _ hc']
        simp [prevFn]
      · have hc' : ¬ (b2j b (b.getD 0 "")).contains (r + 1) = true := by
          rw [← hsym]
          exact hc
        rw [selfChain_eq_zero _ _ _ hc, selfChain_eq_zero _ _ _ hc']
    | succ j' =>
      have hsym := contains_b2j_symm b (r + 1) (j' + 1) hr hj
      have hr' : r < b.length := Nat.lt_of_succ_lt hr
      have hj' : j' < b.length := Nat.lt_of_succ_lt hj
      by_cases hc : (b2j b (b.getD (r + 1) "")).contains (j' + 1) = true
      · have hc' : (b2j b (b.getD (j' + 1) "")).contains (r + 1) = true := by
          rw [← hsym]
          exact hc
        rw [selfChain_step _ _ _ hc, selfChain_step _ _ _ hc']
        simp only [prevFn, Nat.succ_sub_one, if_neg (Nat.succ_ne_zero _)]
        rw [ih j' hr' hj']
      · have hc' : ¬ (b2j b (b.getD (j' + 1) "")).contains (r + 1) = true := by
          rw [← hsym]
          exact hc
        rw [selfChain_eq_zero _ _ _ hc, selfChain_eq_zero _ _ _ hc']

theorem ifMem_cons (l : List String) (r j : Nat) (js : List Nat) (new0 : Nat → Nat) (x : Nat) :
    (if x ∈ js then selfChain l r x else if x = j then selfChain l r j else new0 x) =
      (if x ∈ j :: js then selfChain l r x else new0 x) := by
  by_cases hx : x ∈ js
  · simp [hx]
  · by_cases hxj : x = j
    · subst hxj
      simp [hx]
    · simp [hx, hxj]

theorem flmInner_self (l : List String) (r : Nat) (hr : r < l.length) :
    ∀ (js : List Nat) (new0 : Nat → Nat) (best0 : FLM),
      (∀ j ∈ js, (b2j l (l.getD r "")).contains j = true) →
      js.Pairwise (· < ·) →
      best0.besti = best0.bestj →
      best0.besti + best0.bestsize ≤ l.length →
      (∀ d, d < r → selfChain l d d ≤ best0.bestsize) →
      (selfChain l r r ≤ best0.bestsize ∨ r ∈ js) →
      ((flmInner 0 l.length r (prevFn l r) js new0 best0).2.besti =
          (flmInner 0 l.length r (prevFn l r) js new0 best0).2.bestj ∧
        (flmInner 0 l.length r (prevFn l r) js new0 best0).2.besti +
          (flmInner 0 l.length r (prevFn l r) js new0 best0).2.bestsize ≤ l.length ∧
        (∀ d, d ≤ r →
          selfChain l d d ≤ (flmInner 0 l.length r (prevFn l r) js new0 best0).2.bestsize) ∧
        (∀ x, (flmInner 0 l.length r (prevFn l r) js new0 best0).1 x =
          if x ∈ js then selfChain l r x else new0 x)) := by
  intro js
  induction js with
  | nil =>
    intro new0 best0 hmem hsort hdiag hbound hprev hcur
    refine ⟨hdiag, hbound, ?_, ?_⟩
    · intro d hd
      rcases Nat.lt_or_ge d r with h | h
      · exact hprev d h
      · have hdr : d = r := Nat.le_antisymm hd h
        subst hdr
        rcases hcur with h' | h'
        · exact h'
        · simp at h'
    · intro x
      simp [flmInner]
  | cons j js ih =>
    intro new0 best0 hmem hsort hdiag hbound hprev hcur
    have hcj : (b2j l (l.getD r "")).contains j = true := hmem j (by simp)
    have hjn : j < l.length :=
      (mem_of_mem_b2j _ _ _ ((contains_iff_mem_b2j _ _ _).1 hcj)).1
    have hk : (if j = 0 then 0 else prevFn l r (j - 1)) + 1 = selfChain l r j :=
      (selfChain_step l r j hcj).symm
    have hmem' : ∀ x ∈ js, (b2j l (l.getD r "")).contains x = true :=
      fun x hx => hmem x (by simp [hx])
    have hsort' : js.Pairwise (· < ·) := hsort.of_cons
    rw [flmInner, if_neg (Nat.not_lt_zero j), if_neg (Nat.not_le.2 hjn)]
    simp only [hk]
    rcases Nat.lt_trichotomy j r with hjr | hjr | hjr
    · -- column left of the diagonal: dominated via the mirror chain
      have hle : selfChain l r j ≤ best0.bestsize := by
        calc selfChain l r j = selfChain l j r := selfChain_symm l r j hr hjn
          _ ≤ selfChain l j j := selfChain_le_diag l j hjn r
          _ ≤ best0.bestsize := hprev j hjr
      rw [if_neg (Nat.not_lt.2 hle)]
      have hcur' : selfChain l r r ≤ best0.bestsize ∨ r ∈ js := by
        rcases hcur with h | h
        · exact Or.inl h
        · rcases List.mem_cons.1 h with h' | h'
          · omega
          · exact Or.inr h'
      obtain ⟨ih1, ih2, ih3, ih4⟩ :=
        ih (fun x => if x = j then selfChain l r j else new0 x) best0
          hmem' hsort' hdiag hbound hprev hcur'
      refine ⟨ih1, ih2, ih3, fun x => ?_⟩
      rw [ih4 x]
      exact ifMem_cons l r j js new0 x
    · -- the diagonal column itself: any update stays on the diagonal
      simp only [hjr]
      by_cases hup : best0.bestsize < selfChain l r r
      · rw [if_pos hup]
        have hK := selfChain_le l r r
        obtain ⟨ih1, ih2, ih3, ih4⟩ :=
          ih (fun x => if x = r then selfChain l r r else new0 x)
            ⟨r + 1 - selfChain l r r, r + 1 - selfChain l r r, selfChain l r r⟩
            hmem' hsort' rfl
            (by show r + 1 - selfChain l r r + selfChain l r r ≤ l.length; omega)
            (fun d hd => by
              have := hprev d hd
              show selfChain l d d ≤ selfChain l r r
              omega)
            (Or.inl (by show selfChain l r r ≤ selfChain l r r; exact Nat.le_refl _))
        refine ⟨ih1, ih2, ih3, fun x => ?_⟩
        rw [ih4 x]
        exact ifMem_cons l r r js new0 x
      · rw [if_neg hup]
        obtain ⟨ih1, ih2, ih3, ih4⟩ :=
          ih (fun x => if x = r then selfChain l r r else new0 x) best0
            hmem' hsort' hdiag hbound hprev (Or.inl (Nat.not_lt.1 hup))
        refine ⟨ih1, ih2, ih3, fun x => ?_⟩
        rw [ih4 x]
        exact ifMem_cons l r r js new0 x
    · -- column right of the diagonal: dominated by the diagonal chain,
      -- which was necessarily processed earlier in this row
      have hcurl : selfChain l r r ≤ best0.bestsize := by
        rcases hcur with h | h
        · exact h
        · rcases List.mem_cons.1 h with h' | h'
          · omega
          · have := (List.pairwise_cons.1 hsort).1 r h'
            omega
      have hle : selfChain l r j ≤ best0.bestsize :=
        Nat.le_trans (selfChain_le_diag l r hr j) hcurl
      rw [if_neg (Nat.not_lt.2 hle)]
      obtain ⟨ih1, ih2, ih3, ih4⟩ :=
        ih (fun x => if x = j then selfChain l r j else new0 x) best0
          hmem' hsort' hdiag hbound hprev (Or.inl hcurl)
      refine ⟨ih1, ih2, ih3, fun x => ?_⟩
      rw [ih4 x]
      exact ifMem_cons l r j js new0 x

theorem flmLoop_self (l : List String) :
    ∀ (m s : Nat) (j2len : Nat → Nat) (best0 : FLM),
      s + m = l.length →
      (∀ x, j2len x = prevFn l s x) →
      best0.besti = best0.bestj →
      best0.besti + best0.bestsize ≤ l.length →
      (∀ d, d < s → selfChain l d d ≤ best0.bestsize) →
      ((flmLoop l l 0 l.length (List.range' s m) j2len best0).2.besti =
          (flmLoop l l 0 l.length (List.range' s m) j2len best0).2.bestj ∧
        (flmLoop l l 0 l.length (List.range' s m) j2len best0).2.besti +
          (flmLoop l l 0 l.length (List.range' s m) j2len best0).2.bestsize ≤ l.length) := by
  intro m
  induction m with
  | zero =>
    intro s j2len best0 hs hj2 hdiag hbound hprev
    exact ⟨hdiag, hbound⟩
  | succ m ih =>
    intro s j2len best0 hs hj2 hdiag hbound hprev
    have hfun : j2len = prevFn l s := funext hj2
    subst hfun
    have hsn : s < l.length := by omega
    rw [List.range'_succ, flmLoop]
    have hjs : ∀ j ∈ b2j l (l.getD s ""), (b2j l (l.getD s "")).contains j = true :=
      fun j hj => (contains_iff_mem_b2j _ _ _).2 hj
    have hcur : selfChain l s s ≤ best0.bestsize ∨ s ∈ b2j l (l.getD s "") := by
      rcases b2j_eq_nil_or l (l.getD s "") with hn | he
      · refine Or.inl ?_
        have : ¬ (b2j l (l.getD s "")).contains s = true := by
          rw [hn]
          simp
        rw [selfChain_eq_zero l s s this]
        exact Nat.zero_le _
      · refine Or.inr ?_
        rw [he, mem_b2jList]
        exact ⟨hsn, rfl⟩
    obtain ⟨h1, h2, h3, h4⟩ :=
      flmInner_self l s hsn (b2j l (l.getD s "")) (fun _ => 0) best0
        hjs (b2j_pairwise l _) hdiag hbound hprev hcur
    apply ih (s + 1)
    · omega
    · intro x
      rw [h4 x]
      by_cases hx : x ∈ b2j l (l.getD s "")
      · rw [if_pos hx]
        rfl
      · rw [if_neg hx]
        have : ¬ (b2j l (l.getD s "")).contains x = true := by
          intro hc
          exact hx ((contains_iff_mem_b2j _ _ _).1 hc)
        rw [show prevFn l (s + 1) x = selfChain l s x from rfl,
          selfChain_eq_zero l s x this]
    · exact h1
    · exact h2
    · intro d hd
      rcases Nat.lt_or_ge d s with h | h
      · exact h3 d (Nat.le_of_lt h)
      · have : d = s := by omega
        subst this
        exact h3 d (Nat.le_refl d)

theorem extendLeft_self (l : List String) :
    ∀ (i s : Nat), extendLeft l l 0 0 i ⟨i, i, s⟩ = ⟨0, 0, s + i⟩ := by
  intro i
  induction i with
  | zero =>
    intro s
    rw [extendLeft, Nat.add_zero]
  | succ i ih =>
    intro s
    rw [extendLeft, if_pos ⟨Nat.succ_pos i, Nat.succ_pos i, rfl⟩]
    simp only [Nat.add_sub_cancel]
    rw [ih (s + 1)]
    have : s + 1 + i = s + (i + 1) := by omega
    rw [this]

theorem extendRight_self (l : List String) :
    ∀ (f s : Nat), s + f = l.length →
      extendRight l l l.length l.length f ⟨0, 0, s⟩ = ⟨0, 0, l.length⟩ := by
  intro f
  induction f with
  | zero =>
    intro s hs
    rw [extendRight]
    have : s = l.length := by omega
    rw [this]
  | succ f ih =>
    intro s hs
    have hlt : (FLM.mk 0 0 s).besti + (FLM.mk 0 0 s).bestsize < l.length := by
      simp only
      omega
    rw [extendRight, if_pos ⟨hlt, hlt, rfl⟩]
    exact ih (s + 1) (by omega)

theorem find_longest_match_self (l : List String) :
    find_longest_match l l 0 l.length 0 l.length = (0, 0, l.length) := by
  obtain ⟨h1, h2⟩ :=
    flmLoop_self l l.length 0 (fun _ => 0) ⟨0, 0, 0⟩ (by omega)
      (fun x => rfl) rfl (Nat.zero_le _) (fun d hd => absurd hd (Nat.not_lt_zero d))
  rw [find_longest_match]
  simp only [Nat.sub_zero]
  rcases hst : (flmLoop l l 0 l.length (List.range' 0 l.length) (fun _ => 0) ⟨0, 0, 0⟩).2
    with ⟨bi, bj, bs⟩
  rw [hst] at h1 h2
  simp only at h1 h2
  subst h1
  rw [extendLeft_self l bi bs]
  simp only [Nat.zero_add]
  rw [extendRight_self l (l.length - (bs + bi)) (bs + bi) (by omega)]

/-! ## General soundness of find_longest_match

Any match the main loop or the extension loops report is a genuine,
in-window match: the basis of the reconstruction (sublist) property. -/

theorem flmInner_spec (a b : List String) (alo ahi blo bhi i : Nat)
    (hi : alo ≤ i) (hia : i < ahi) :
    ∀ (js : List Nat) (old new0 : Nat → Nat) (best0 : FLM),
      (∀ j ∈ js, b.getD j "" = a.getD i "") →
      DictGe a b alo blo i old →
      DictGe a b alo blo (i + 1) new0 →
      BestInv a b alo ahi blo bhi best0 →
      BestInv a b alo ahi blo bhi (flmInner blo bhi i old js new0 best0).2 ∧
        DictGe a b alo blo (i + 1) (flmInner blo bhi i old js new0 best0).1 := by
  intro js
  induction js with
  | nil =>
    intro old new0 best0 hmem hold hnew hbest
    exact ⟨hbest, hnew⟩
  | cons j js ih =>
    intro old new0 best0 hmem hold hnew hbest
    rw [flmInner]
    by_cases h1 : j < blo
    · rw [if_pos h1]
      exact ih old new0 best0 (fun x hx => hmem x (by simp [hx])) hold hnew hbest
    · rw [if_neg h1]
      by_cases h2 : bhi ≤ j
      · rw [if_pos h2]
        exact ⟨hbest, hnew⟩
      · rw [if_neg h2]
        have hblo : blo ≤ j := Nat.not_lt.1 h1
        have hbhi : j < bhi := Nat.not_le.1 h2
        have hmemj : b.getD j "" = a.getD i "" := hmem j (by simp)
        have hkle : (if j = 0 then 0 else old (j - 1)) + 1 ≤ i + 1 - alo ∧
            (if j = 0 then 0 else old (j - 1)) + 1 ≤ j + 1 - blo := by
          by_cases hj0 : j = 0
          · rw [if_pos hj0]
            omega
          · rw [if_neg hj0]
            by_cases hz : old (j - 1) = 0
            · rw [hz]
              omega
            · have := hold (j - 1) hz
              omega
        have hkchain : ∀ t, t < (if j = 0 then 0 else old (j - 1)) + 1 →
            a.getD (i - t) "" = b.getD (j - t) "" := by
          intro t ht
          cases t with
          | zero =>
            simpa using hmemj.symm
          | succ s =>
            have hj0 : ¬ j = 0 := by
              intro h
              rw [if_pos h] at ht
              omega
            rw [if_neg hj0] at ht
            have hz : old (j - 1) ≠ 0 := by omega
            have hs : s < old (j - 1) := by omega
            have heq := (hold (j - 1) hz).2.2.2 s hs
            have e1 : i - 1 - s = i - (s + 1) := by omega
            have e2 : j - 1 - s = j - (s + 1) := by omega
            rw [e1, e2] at heq
            exact heq
        refine ih old _ _ (fun x hx => hmem x (by simp [hx])) hold ?_ ?_
        · -- the updated dict still satisfies the dict invariant at row i+1
          intro x hx
          dsimp only at hx ⊢
          by_cases hxj : x = j
          · subst hxj
            rw [if_pos rfl] at hx ⊢
            refine ⟨by omega, by omega, hblo, ?_⟩
            intro t ht
            simp only [Nat.add_sub_cancel]
            exact hkchain t ht
          · rw [if_neg hxj] at hx ⊢
            exact hnew x hx
        · -- the (possibly) updated best still satisfies the best invariant
          by_cases hup : best0.bestsize < (if j = 0 then 0 else old (j - 1)) + 1
          · rw [if_pos hup]
            constructor
            · intro h
              exact absurd h (Nat.succ_ne_zero _)
            · intro _
              refine ⟨?_, ?_, ?_, ?_, ?_⟩
              · show alo ≤ i + 1 - ((if j = 0 then 0 else old (j - 1)) + 1)
                omega
              · show blo ≤ j + 1 - ((if j = 0 then 0 else old (j - 1)) + 1)
                omega
              · show i + 1 - ((if j = 0 then 0 else old (j - 1)) + 1) +
                  ((if j = 0 then 0 else old (j - 1)) + 1) ≤ ahi
                omega
              · show j + 1 - ((if j = 0 then 0 else old (j - 1)) + 1) +
                  ((if j = 0 then 0 else old (j - 1)) + 1) ≤ bhi
                omega
              · intro t ht
                have hkk := hkle
                show a.getD (i + 1 - ((if j = 0 then 0 else old (j - 1)) + 1) + t) "" =
                  b.getD (j + 1 - ((if j = 0 then 0 else old (j - 1)) + 1) + t) ""
                have ht' : t < (if j = 0 then 0 else old (j - 1)) + 1 := ht
                have e1 : i + 1 - ((if j = 0 then 0 else old (j - 1)) + 1) + t =
                    i - ((if j = 0 then 0 else old (j - 1)) + 1 - 1 - t) := by omega
                have e2 : j + 1 - ((if j = 0 then 0 else old (j - 1)) + 1) + t =
                    j - ((if j = 0 then 0 else old (j - 1)) + 1 - 1 - t) := by omega
                rw [e1, e2]
                exact hkchain _ (by omega)
          · rw [if_neg hup]
            exact hbest

theorem flmLoop_spec (a b : List String) (alo ahi blo bhi : Nat) :
    ∀ (m s : Nat) (j2len : Nat → Nat) (best0 : FLM),
      alo ≤ s → s + m ≤ ahi →
      DictGe a b alo blo s j2len →
      BestInv a b alo ahi blo bhi best0 →
      BestInv a b alo ahi blo bhi
        (flmLoop a b blo bhi (List.range' s m) j2len best0).2 := by
  intro m
  induction m with
  | zero =>
    intro s j2len best0 _ _ _ hbest
    exact hbest
  | succ m ih =>
    intro s j2len best0 hs hm hdict hbest
    rw [List.range'_succ, flmLoop]
    obtain ⟨hb, hd⟩ :=
      flmInner_spec a b alo ahi blo bhi s hs (by omega) (b2j b (a.getD s ""))
        j2len (fun _ => 0) best0
        (fun j hj => (mem_of_mem_b2j b _ j hj).2)
        hdict (fun j hj => absurd rfl hj) hbest
    exact ih (s + 1) _ _ (by omega) (by omega) hd hb

theorem extendLeft_inv (a b : List String) (alo ahi blo bhi : Nat) :
    ∀ (fuel : Nat) (st : FLM), BestInv a b alo ahi blo bhi st →
      BestInv a b alo ahi blo bhi (extendLeft a b alo blo fuel st) := by
  intro fuel
  induction fuel with
  | zero =>
    intro st h
    exact h
  | succ fuel ih =>
    intro st hst
    rw [extendLeft]
    by_cases hg : alo < st.besti ∧ blo < st.bestj ∧
        a.getD (st.besti - 1) "" = b.getD (st.bestj - 1) ""
    · rw [if_pos hg]
      apply ih
      obtain ⟨hg1, hg2, hg3⟩ := hg
      constructor
      · intro h
        exact absurd h (Nat.succ_ne_zero _)
      · intro _
        by_cases hz : st.bestsize = 0
        · obtain ⟨hi0, hj0⟩ := hst.1 hz
          rw [hi0] at hg1
          exact absurd hg1 (Nat.lt_irrefl alo)
        · obtain ⟨p1, p2, p3, p4, p5⟩ := hst.2 hz
          refine ⟨?_, ?_, ?_, ?_, ?_⟩
          · show alo ≤ st.besti - 1
            omega
          · show blo ≤ st.bestj - 1
            omega
          · show st.besti - 1 + (st.bestsize + 1) ≤ ahi
            omega
          · show st.bestj - 1 + (st.bestsize + 1) ≤ bhi
            omega
          · intro t ht
            have ht' : t < st.bestsize + 1 := ht
            show a.getD (st.besti - 1 + t) "" = b.getD (st.bestj - 1 + t) ""
            cases t with
            | zero =>
              simpa using hg3
            | succ s =>
              have hs' : s < st.bestsize := by omega
              have e1 : st.besti - 1 + (s + 1) = st.besti + s := by omega
              have e2 : st.bestj - 1 + (s + 1) = st.bestj + s := by omega
              rw [e1, e2]
              exact p5 s hs'
    · rw [if_neg hg]
      exact hst

theorem extendRight_inv (a b : List String) (alo ahi blo bhi : Nat) :
    ∀ (fuel : Nat) (st : FLM), BestInv a b alo ahi blo bhi st →
      BestInv a b alo ahi blo bhi (extendRight a b ahi bhi fuel st) := by
  intro fuel
  induction fuel with
  | zero =>
    intro st h
    exact h
  | succ fuel ih =>
    intro st hst
    rw [extendRight]
    by_cases hg : st.besti + st.bestsize < ahi ∧ st.bestj + st.bestsize < bhi ∧
        a.getD (st.besti + st.bestsize) "" = b.getD (st.bestj + st.bestsize) ""
    · rw [if_pos hg]
      apply ih
      obtain ⟨hg1, hg2, hg3⟩ := hg
      constructor
      · intro h
        exact absurd h (Nat.succ_ne_zero _)
      · intro _
        by_cases hz : st.bestsize = 0
        · obtain ⟨hi0, hj0⟩ := hst.1 hz
          refine ⟨?_, ?_, ?_, ?_, ?_⟩
          · show alo ≤ st.besti
            omega
          · show blo ≤ st.bestj
            omega
          · show st.besti + (st.bestsize + 1) ≤ ahi
            omega
          · show st.bestj + (st.bestsize + 1) ≤ bhi
            omega
          · intro t ht
            have ht' : t < st.bestsize + 1 := ht
            have ht0 : t = 0 := by omega
            subst ht0
            show a.getD (st.besti + 0) "" = b.getD (st.bestj + 0) ""
            have e1 : st.besti + 0 = st.besti + st.bestsize := by omega
            have e2 : st.bestj + 0 = st.bestj + st.bestsize := by omega
            rw [e1, e2]
            exact hg3
        · obtain ⟨p1, p2, p3, p4, p5⟩ := hst.2 hz
          refine ⟨p1, p2, ?_, ?_, ?_⟩
          · show st.besti + (st.bestsize + 1) ≤ ahi
            omega
          · show st.bestj + (st.bestsize + 1) ≤ bhi
            omega
          · intro t ht
            have ht' : t < st.bestsize + 1 := ht
            show a.getD (st.besti + t) "" = b.getD (st.bestj + t) ""
            rcases Nat.lt_or_ge t st.bestsize with h | h
            · exact p5 t h
            · have hts : t = st.bestsize := by omega
              subst hts
              exact hg3
    · rw [if_neg hg]
      exact hst

theorem find_longest_match_inv (a b : List String) (alo ahi blo bhi : Nat)
    (hab : alo ≤ ahi) :
    BestInv a b alo ahi blo bhi
      ⟨(find_longest_match a b alo ahi blo bhi).1,
        (find_longest_match a b alo ahi blo bhi).2.1,
        (find_longest_match a b alo ahi blo bhi).2.2⟩ := by
  have hb0 : BestInv a b alo ahi blo bhi ⟨alo, blo, 0⟩ :=
    ⟨fun _ => ⟨rfl, rfl⟩, fun h => absurd rfl h⟩
  have hb1 := flmLoop_spec a b alo ahi blo bhi (ahi - alo) alo (fun _ => 0) ⟨alo, blo, 0⟩
    (Nat.le_refl alo) (by omega) (fun j hj => absurd rfl hj) hb0
  show BestInv a b alo ahi blo bhi
    (extendRight a b ahi bhi
      (ahi -
        ((extendLeft a b alo blo
            ((flmLoop a b blo bhi (List.range' alo (ahi - alo)) (fun _ => 0)
                ⟨alo, blo, 0⟩).2.besti - alo)
            (flmLoop a b blo bhi (List.range' alo (ahi - alo)) (fun _ => 0)
              ⟨alo, blo, 0⟩).2).besti +
          (extendLeft a b alo blo
            ((flmLoop a b blo bhi (List.range' alo (ahi - alo)) (fun _ => 0)
                ⟨alo, blo, 0⟩).2.besti - alo)
            (flmLoop a b blo bhi (List.range' alo (ahi - alo)) (fun _ => 0)
              ⟨alo, blo, 0⟩).2).bestsize))
      (extendLeft a b alo blo
        ((flmLoop a b blo bhi (List.range' alo (ahi - alo)) (fun _ => 0)
            ⟨alo, blo, 0⟩).2.besti - alo)
        (flmLoop a b blo bhi (List.range' alo (ahi - alo)) (fun _ => 0) ⟨alo, blo, 0⟩).2))
  exact extendRight_inv a b alo ahi blo bhi _ _ (extendLeft_inv a b alo ahi blo bhi _ _ hb1)

theorem chainedTo_mono_start (a b : List String) (L : List (Nat × Nat × Nat))
    (lo jlo lo' jlo' hi jhi : Nat) (h1 : lo' ≤ lo) (h2 : jlo' ≤ jlo)
    (h : chainedTo a b lo jlo L hi jhi) : chainedTo a b lo' jlo' L hi jhi := by
  cases L with
  | nil => exact ⟨Nat.le_trans h1 h.1, Nat.le_trans h2 h.2⟩
  | cons blk tl =>
    obtain ⟨i, j, k⟩ := blk
    obtain ⟨q1, q2, q3, q4, q5, q6⟩ := h
    exact ⟨by omega, by omega, q3, q4, q5, q6⟩

theorem chainedTo_mono_end (a b : List String) :
    ∀ (L : List (Nat × Nat × Nat)) (lo jlo hi jhi hi' jhi' : Nat),
      hi ≤ hi' → jhi ≤ jhi' →
      chainedTo a b lo jlo L hi jhi → chainedTo a b lo jlo L hi' jhi' := by
  intro L
  induction L with
  | nil =>
    intro lo jlo hi jhi hi' jhi' h1 h2 h
    exact ⟨Nat.le_trans h.1 h1, Nat.le_trans h.2 h2⟩
  | cons blk tl ih =>
    intro lo jlo hi jhi hi' jhi' h1 h2 h
    obtain ⟨i, j, k⟩ := blk
    obtain ⟨q1, q2, q3, q4, q5, q6⟩ := h
    exact ⟨q1, q2, q3, q4, q5, ih _ _ _ _ _ _ h1 h2 q6⟩

theorem chainedTo_append (a b : List String) :
    ∀ (L1 L2 : List (Nat × Nat × Nat)) (lo jlo m mj hi jhi : Nat),
      chainedTo a b lo jlo L1 m mj → chainedTo a b m mj L2 hi jhi →
      chainedTo a b lo jlo (L1 ++ L2) hi jhi := by
  intro L1
  induction L1 with
  | nil =>
    intro L2 lo jlo m mj hi jhi h1 h2
    exact chainedTo_mono_start a b L2 m mj lo jlo hi jhi h1.1 h1.2 h2
  | cons blk tl ih =>
    intro L2 lo jlo m mj hi jhi h1 h2
    obtain ⟨i, j, k⟩ := blk
    obtain ⟨q1, q2, q3, q4, q5, q6⟩ := h1
    exact ⟨q1, q2, q3, q4, q5, ih L2 _ _ m mj hi jhi q6 h2⟩

theorem chainedTo_snoc (a b : List String) :
    ∀ (L : List (Nat × Nat × Nat)) (lo jlo i j k : Nat),
      chainedTo a b lo jlo L i j →
      i + k ≤ a.length → j + k ≤ b.length →
      (∀ t, t < k → a.getD (i + t) "" = b.getD (j + t) "") →
      chainedTo a b lo jlo (L ++ [(i, j, k)]) (i + k) (j + k) := by
  intro L
  induction L with
  | nil =>
    intro lo jlo i j k h hb1 hb2 hm
    exact ⟨h.1, h.2, hb1, hb2, hm, Nat.le_refl _, Nat.le_refl _⟩
  | cons blk tl ih =>
    intro lo jlo i j k h hb1 hb2 hm
    obtain ⟨i0, j0, k0⟩ := blk
    obtain ⟨q1, q2, q3, q4, q5, q6⟩ := h
    exact ⟨q1, q2, q3, q4, q5, ih _ _ i j k q6 hb1 hb2 hm⟩

theorem mbRec_spec (a b : List String) :
    ∀ (fuel alo ahi blo bhi : Nat),
      alo ≤ ahi → blo ≤ bhi → ahi ≤ a.length → bhi ≤ b.length →
      chainedTo a b alo blo (mbRec a b fuel alo ahi blo bhi) ahi bhi := by
  intro fuel
  induction fuel with
  | zero =>
    intro alo ahi blo bhi h1 h2 _ _
    rw [mbRec]
    exact ⟨h1, h2⟩
  | succ fuel ih =>
    intro alo ahi blo bhi h1 h2 h3 h4
    rw [mbRec]
    by_cases hk : (find_longest_match a b alo ahi blo bhi).2.2 = 0
    · rw [if_pos hk]
      exact ⟨h1, h2⟩
    · rw [if_neg hk]
      have hinv := (find_longest_match_inv a b alo ahi blo bhi h1).2 hk
      obtain ⟨q1', q2', q3', q4', q5'⟩ := hinv
      have q1 : alo ≤ (find_longest_match a b alo ahi blo bhi).1 := q1'
      have q2 : blo ≤ (find_longest_match a b alo ahi blo bhi).2.1 := q2'
      have q3 : (find_longest_match a b alo ahi blo bhi).1 +
          (find_longest_match a b alo ahi blo bhi).2.2 ≤ ahi := q3'
      have q4 : (find_longest_match a b alo ahi blo bhi).2.1 +
          (find_longest_match a b alo ahi blo bhi).2.2 ≤ bhi := q4'
      have q5 : ∀ t, t < (find_longest_match a b alo ahi blo bhi).2.2 →
          a.getD ((find_longest_match a b alo ahi blo bhi).1 + t) "" =
            b.getD ((find_longest_match a b alo ahi blo bhi).2.1 + t) "" := q5'
      apply chainedTo_append a b _ _ alo blo
        (find_longest_match a b alo ahi blo bhi).1
        (find_longest_match a b alo ahi blo bhi).2.1 ahi bhi
      · by_cases hg : alo < (find_longest_match a b alo ahi blo bhi).1 ∧
            blo < (find_longest_match a b alo ahi blo bhi).2.1
        · rw [if_pos hg]
          exact ih alo _ blo _ (by omega) (by omega) (by omega) (by omega)
        · rw [if_neg hg]
          exact ⟨q1, q2⟩
      · refine ⟨Nat.le_refl _, Nat.le_refl _, by omega, by omega, q5, ?_⟩
        by_cases hg : (find_longest_match a b alo ahi blo bhi).1 +
              (find_longest_match a b alo ahi blo bhi).2.2 < ahi ∧
            (find_longest_match a b alo ahi blo bhi).2.1 +
              (find_longest_match a b alo ahi blo bhi).2.2 < bhi
        · rw [if_pos hg]
          exact ih _ ahi _ bhi (by omega) (by omega) h3 h4
        · rw [if_neg hg]
          exact ⟨q3, q4⟩

theorem mergeGo_spec (a b : List String) :
    ∀ (L : List (Nat × Nat × Nat)) (acc : Nat × Nat × Nat) (out : List (Nat × Nat × Nat)),
      chainedTo a b 0 0 out acc.1 acc.2.1 →
      acc.1 + acc.2.2 ≤ a.length → acc.2.1 + acc.2.2 ≤ b.length →
      (∀ t, t < acc.2.2 → a.getD (acc.1 + t) "" = b.getD (acc.2.1 + t) "") →
      chainedTo a b (acc.1 + acc.2.2) (acc.2.1 + acc.2.2) L a.length b.length →
      chainedTo a b 0 0 (mergeGo L acc out) a.length b.length := by
  intro L
  induction L with
  | nil =>
    intro acc out hout hacc1 hacc2 haccm hL
    rw [mergeGo]
    by_cases hz : acc.2.2 ≠ 0
    · rw [if_pos hz]
      have hsn := chainedTo_snoc a b out 0 0 acc.1 acc.2.1 acc.2.2 hout hacc1 hacc2 haccm
      exact chainedTo_mono_end a b _ 0 0 _ _ _ _ hL.1 hL.2 hsn
    · rw [if_neg hz]
      rw [List.append_nil]
      push_neg at hz
      exact chainedTo_mono_end a b out 0 0 _ _ _ _ (by omega) (by omega) hout
  | cons blk tl ih =>
    intro acc out hout hacc1 hacc2 haccm hL
    obtain ⟨i2, j2, k2⟩ := blk
    obtain ⟨hb1, hb2, hb3, hb4, hb5, hb6⟩ := hL
    rw [mergeGo]
    by_cases hadj : acc.1 + acc.2.2 = i2 ∧ acc.2.1 + acc.2.2 = j2
    · rw [if_pos hadj]
      obtain ⟨ha1, ha2⟩ := hadj
      apply ih (acc.1, acc.2.1, acc.2.2 + k2) out
      · exact hout
      · show acc.1 + (acc.2.2 + k2) ≤ a.length
        omega
      · show acc.2.1 + (acc.2.2 + k2) ≤ b.length
        omega
      · intro t ht
        have ht' : t < acc.2.2 + k2 := ht
        show a.getD (acc.1 + t) "" = b.getD (acc.2.1 + t) ""
        rcases Nat.lt_or_ge t acc.2.2 with h | h
        · exact haccm t h
        · have e1 : acc.1 + t = i2 + (t - acc.2.2) := by omega
          have e2 : acc.2.1 + t = j2 + (t - acc.2.2) := by omega
          rw [e1, e2]
          exact hb5 _ (by omega)
      · show chainedTo a b (acc.1 + (acc.2.2 + k2)) (acc.2.1 + (acc.2.2 + k2)) tl
          a.length b.length
        have e1 : acc.1 + (acc.2.2 + k2) = i2 + k2 := by omega
        have e2 : acc.2.1 + (acc.2.2 + k2) = j2 + k2 := by omega
        rw [e1, e2]
        exact hb6
    · rw [if_neg hadj]
      by_cases hz : acc.2.2 ≠ 0
      · rw [if_pos hz]
        apply ih (i2, j2, k2) (out ++ [acc])
        · show chainedTo a b 0 0 (out ++ [acc]) i2 j2
          have hsn := chainedTo_snoc a b out 0 0 acc.1 acc.2.1 acc.2.2 hout hacc1 hacc2 haccm
          have : out ++ [(acc.1, acc.2.1, acc.2.2)] = out ++ [acc] := rfl
          rw [this] at hsn
          exact chainedTo_mono_end a b _ 0 0 _ _ _ _ hb1 hb2 hsn
        · exact hb3
        · exact hb4
        · exact hb5
        · exact hb6
      · rw [if_neg hz, List.append_nil]
        push_neg at hz
        apply ih (i2, j2, k2) out
        · show chainedTo a b 0 0 out i2 j2
          exact chainedTo_mono_end a b out 0 0 acc.1 acc.2.1 i2 j2 (by omega) (by omega) hout
        · exact hb3
        · exact hb4
        · exact hb5
        · exact hb6

theorem get_matching_blocks_spec (a b : List String) :
    chainedTo a b 0 0 (get_matching_blocks a b) a.length b.length := by
  rw [get_matching_blocks]
  have hm := mbRec_spec a b (a.length + b.length + 1) 0 a.length 0 b.length
    (Nat.zero_le _) (Nat.zero_le _) (Nat.le_refl _) (Nat.le_refl _)
  have hmg := mergeGo_spec a b _ (0, 0, 0) [] ⟨Nat.le_refl _, Nat.le_refl _⟩
    (by show 0 + 0 ≤ a.length; omega) (by show 0 + 0 ≤ b.length; omega)
    (fun t ht => absurd ht (Nat.not_lt_zero t)) hm
  have hsn := chainedTo_snoc a b _ 0 0 a.length b.length 0 hmg
    (by omega) (by omega) (fun t ht => absurd ht (Nat.not_lt_zero t))
  exact chainedTo_mono_end a b _ 0 0 _ _ _ _ (by omega) (by omega) hsn

theorem opChainTo_le (a b : List String) :
    ∀ (L : List Opcode) (ci cj hi hj : Nat),
      opChainTo a b ci cj L hi hj → ci ≤ hi ∧ cj ≤ hj := by
  intro L
  induction L with
  | nil =>
    intro ci cj hi hj h
    exact h
  | cons c tl ih =>
    intro ci cj hi hj h
    obtain ⟨p1, p2, p3, p4, p5, p6, p7, p8⟩ := h
    have := ih c.i2 c.j2 hi hj p8
    exact ⟨by omega, by omega⟩

theorem opChainTo_mono_start (a b : List String) (L : List Opcode)
    (ci cj ci' cj' hi hj : Nat) (h1 : ci' ≤ ci) (h2 : cj' ≤ cj)
    (h : opChainTo a b ci cj L hi hj) : opChainTo a b ci' cj' L hi hj := by
  cases L with
  | nil => exact ⟨Nat.le_trans h1 h.1, Nat.le_trans h2 h.2⟩
  | cons c tl =>
    obtain ⟨p1, p2, p3, p4, p5, p6, p7, p8⟩ := h
    exact ⟨by omega, p2, p3, by omega, p5, p6, p7, p8⟩

theorem opChainTo_mono_end (a b : List String) :
    ∀ (L : List Opcode) (ci cj hi hj hi' hj' : Nat),
      hi ≤ hi' → hj ≤ hj' →
      opChainTo a b ci cj L hi hj → opChainTo a b ci cj L hi' hj' := by
  intro L
  induction L with
  | nil =>
    intro ci cj hi hj hi' hj' h1 h2 h
    exact ⟨Nat.le_trans h.1 h1, Nat.le_trans h.2 h2⟩
  | cons c tl ih =>
    intro ci cj hi hj hi' hj' h1 h2 h
    obtain ⟨p1, p2, p3, p4, p5, p6, p7, p8⟩ := h
    exact ⟨p1, p2, p3, p4, p5, p6, p7, ih _ _ _ _ _ _ h1 h2 p8⟩

theorem opChainTo_snoc (a b : List String) :
    ∀ (L : List Opcode) (lo jlo e f : Nat) (c : Opcode),
      opChainTo a b lo jlo L e f →
      e ≤ c.i1 → c.i1 ≤ c.i2 → c.i2 ≤ a.length →
      f ≤ c.j1 → c.j1 ≤ c.j2 → c.j2 ≤ b.length →
      (c.tag = Tag.equal → c.i2 - c.i1 = c.j2 - c.j1 ∧
        ∀ t, t < c.i2 - c.i1 → a.getD (c.i1 + t) "" = b.getD (c.j1 + t) "") →
      opChainTo a b lo jlo (L ++ [c]) c.i2 c.j2 := by
  intro L
  induction L with
  | nil =>
    intro lo jlo e f c h h1 h2 h3 h4 h5 h6 h7
    obtain ⟨g1, g2⟩ := h
    exact ⟨by omega, h2, h3, by omega, h5, h6, h7, Nat.le_refl _, Nat.le_refl _⟩
  | cons c0 tl ih =>
    intro lo jlo e f c h h1 h2 h3 h4 h5 h6 h7
    obtain ⟨p1, p2, p3, p4, p5, p6, p7, p8⟩ := h
    exact ⟨p1, p2, p3, p4, p5, p6, p7, ih _ _ e f c p8 h1 h2 h3 h4 h5 h6 h7⟩

theorem opChainTo_append_left (a b : List String) :
    ∀ (X Y : List Opcode) (lo jlo hi hj : Nat),
      opChainTo a b lo jlo (X ++ Y) hi hj → opChainTo a b lo jlo X hi hj := by
  intro X
  induction X with
  | nil =>
    intro Y lo jlo hi hj h
    exact opChainTo_le a b Y lo jlo hi hj h
  | cons c tl ih =>
    intro Y lo jlo hi hj h
    obtain ⟨p1, p2, p3, p4, p5, p6, p7, p8⟩ := h
    exact ⟨p1, p2, p3, p4, p5, p6, p7, ih Y _ _ _ _ p8⟩

theorem opcodesGo_spec (a b : List String) :
    ∀ (blocks : List (Nat × Nat × Nat)) (ci cj : Nat),
      chainedTo a b ci cj blocks a.length b.length →
      opChainTo a b ci cj (opcodesGo blocks ci cj) a.length b.length := by
  intro blocks
  induction blocks with
  | nil =>
    intro ci cj h
    exact ⟨h.1, h.2⟩
  | cons blk tl ih =>
    intro ci cj h
    obtain ⟨ai, bj, size⟩ := blk
    obtain ⟨q1, q2, q3, q4, q5, q6⟩ := h
    have hrec := ih (ai + size) (bj + size) q6
    rw [opcodesGo]
    have hsz : ai ≤ a.length := by omega
    have hszb : bj ≤ b.length := by omega
    have hmid : opChainTo a b ai bj
        ((if size ≠ 0 then [⟨Tag.equal, ai, ai + size, bj, bj + size⟩] else []) ++
          opcodesGo tl (ai + size) (bj + size)) a.length b.length := by
      by_cases hs : size ≠ 0
      · rw [if_pos hs]
        refine ⟨Nat.le_refl _, Nat.le_add_right ai size, ?_, Nat.le_refl _,
          Nat.le_add_right bj size, ?_, ?_, hrec⟩
        · show ai + size ≤ a.length
          exact q3
        · show bj + size ≤ b.length
          exact q4
        · intro _
          constructor
          · show ai + size - ai = bj + size - bj
            omega
          · intro t ht
            have ht' : t < ai + size - ai := ht
            show a.getD (ai + t) "" = b.getD (bj + t) ""
            exact q5 t (by omega)
      · rw [if_neg hs]
        rw [List.nil_append]
        push_neg at hs
        exact opChainTo_mono_start a b _ (ai + size) (bj + size) ai bj _ _
          (by omega) (by omega) hrec
    by_cases t1 : ci < ai ∧ cj < bj
    · rw [if_pos t1]
      refine ⟨Nat.le_refl _, Nat.le_of_lt t1.1, hsz, Nat.le_refl _, Nat.le_of_lt t1.2,
        hszb, ?_, hmid⟩
      intro hcontra
      exact Tag.noConfusion hcontra
    · rw [if_neg t1]
      by_cases t2 : ci < ai
      · rw [if_pos t2]
        refine ⟨Nat.le_refl _, Nat.le_of_lt t2, hsz, Nat.le_refl _, q2, hszb, ?_, hmid⟩
        intro hcontra
        exact Tag.noConfusion hcontra
      · rw [if_neg t2]
        by_cases t3 : cj < bj
        · rw [if_pos t3]
          refine ⟨Nat.le_refl _, q1, hsz, Nat.le_refl _, Nat.le_of_lt t3, hszb, ?_, hmid⟩
          intro hcontra
          exact Tag.noConfusion hcontra
        · rw [if_neg t3]
          rw [List.nil_append]
          exact opChainTo_mono_start a b _ ai bj ci cj _ _ q1 q2 hmid

theorem get_opcodes_spec (a b : List String) :
    opChainTo a b 0 0 (get_opcodes a b) a.length b.length := by
  rw [get_opcodes]
  exact opcodesGo_spec a b _ 0 0 (get_matching_blocks_spec a b)

theorem fixHead_spec (a b : List String) (n : Nat) (codes : List Opcode) (hi hj : Nat)
    (h : opChainTo a b 0 0 codes hi hj) :
    opChainTo a b 0 0 (fixHead n codes) hi hj := by
  cases codes with
  | nil => exact h
  | cons c tl =>
    rw [fixHead]
    by_cases he : c.tag = Tag.equal
    · rw [if_pos he]
      obtain ⟨p1, p2, p3, p4, p5, p6, p7, p8⟩ := h
      obtain ⟨hlen, hmatch⟩ := p7 he
      refine ⟨Nat.zero_le _, ?_, ?_, Nat.zero_le _, ?_, ?_, ?_, p8⟩
      · show max c.i1 (c.i2 - n) ≤ c.i2
        omega
      · exact p3
      · show max c.j1 (c.j2 - n) ≤ c.j2
        omega
      · exact p6
      · intro _
        constructor
        · show c.i2 - max c.i1 (c.i2 - n) = c.j2 - max c.j1 (c.j2 - n)
          omega
        · intro t ht
          have ht' : t < c.i2 - max c.i1 (c.i2 - n) := ht
          show a.getD (max c.i1 (c.i2 - n) + t) "" = b.getD (max c.j1 (c.j2 - n) + t) ""
          have e1 : max c.i1 (c.i2 - n) + t = c.i1 + (max c.i1 (c.i2 - n) - c.i1 + t) := by
            omega
          have e2 : max c.j1 (c.j2 - n) + t = c.j1 + (max c.i1 (c.i2 - n) - c.i1 + t) := by
            omega
          rw [e1, e2]
          exact hmatch _ (by omega)
    · rw [if_neg he]
      exact h

theorem fixTail_cons₂ (n : Nat) (c c2 : Opcode) (tl : List Opcode) :
    fixTail n (c :: c2 :: tl) = c :: fixTail n (c2 :: tl) := by
  rw [fixTail, fixTail, List.getLast?_cons_cons]
  cases hlast : (c2 :: tl).getLast? with
  | none => exact absurd hlast (by simp)
  | some cl =>
    dsimp only
    by_cases he : cl.tag = Tag.equal
    · rw [if_pos he, if_pos he, List.dropLast_cons₂]
      rfl
    · rw [if_neg he, if_neg he]

theorem fixTail_spec (a b : List String) (n : Nat) :
    ∀ (codes : List Opcode) (ci cj hi hj : Nat),
      opChainTo a b ci cj codes hi hj →
      opChainTo a b ci cj (fixTail n codes) hi hj := by
  intro codes
  induction codes with
  | nil =>
    intro ci cj hi hj h
    exact h
  | cons c rest ih =>
    intro ci cj hi hj h
    cases rest with
    | nil =>
      rw [fixTail, List.getLast?_singleton]
      dsimp only
      obtain ⟨p1, p2, p3, p4, p5, p6, p7, p8⟩ := h
      by_cases he : c.tag = Tag.equal
      · rw [if_pos he]
        obtain ⟨hlen, hmatch⟩ := p7 he
        obtain ⟨g1, g2⟩ := p8
        rw [List.dropLast_single, List.nil_append]
        refine ⟨p1, ?_, ?_, p4, ?_, ?_, ?_, ?_⟩
        · show c.i1 ≤ min c.i2 (c.i1 + n)
          omega
        · show min c.i2 (c.i1 + n) ≤ a.length
          omega
        · show c.j1 ≤ min c.j2 (c.j1 + n)
          omega
        · show min c.j2 (c.j1 + n) ≤ b.length
          omega
        · intro _
          constructor
          · show min c.i2 (c.i1 + n) - c.i1 = min c.j2 (c.j1 + n) - c.j1
            omega
          · intro t ht
            have ht' : t < min c.i2 (c.i1 + n) - c.i1 := ht
            show a.getD (c.i1 + t) "" = b.getD (c.j1 + t) ""
            exact hmatch t (by omega)
        · show opChainTo a b (min c.i2 (c.i1 + n)) (min c.j2 (c.j1 + n)) [] hi hj
          exact ⟨by omega, by omega⟩
      · rw [if_neg he]
        exact ⟨p1, p2, p3, p4, p5, p6, p7, p8⟩
    | cons c2 tl =>
      rw [fixTail_cons₂]
      obtain ⟨p1, p2, p3, p4, p5, p6, p7, p8⟩ := h
      exact ⟨p1, p2, p3, p4, p5, p6, p7, ih _ _ _ _ p8⟩

theorem mbRec_self (l : List String) (fuel : Nat) :
    mbRec l l (fuel + 1) 0 l.length 0 l.length =
      if l.length = 0 then [] else [(0, 0, l.length)] := by
  rw [mbRec]
  simp only [find_longest_match_self]
  by_cases hn : l.length = 0
  · rw [if_pos hn, if_pos hn]
  · rw [if_neg hn, if_neg hn,
      if_neg (by omega : ¬ ((0 : Nat) < 0 ∧ (0 : Nat) < 0)),
      if_neg (by omega : ¬ (0 + l.length < l.length ∧ 0 + l.length < l.length))]
    rfl

theorem get_matching_blocks_self (l : List String) :
    get_matching_blocks l l =
      if l.length = 0 then [(0, 0, 0)]
      else [(0, 0, l.length), (l.length, l.length, 0)] := by
  rw [get_matching_blocks, mbRec_self]
  by_cases hn : l.length = 0
  · rw [if_pos hn, if_pos hn, hn]
    rfl
  · rw [if_neg hn, if_neg hn, mergeGo, if_pos ⟨rfl, rfl⟩, mergeGo,
      if_pos (by simpa using hn)]
    simp

theorem get_opcodes_self (l : List String) :
    get_opcodes l l =
      if l.length = 0 then [] else [⟨Tag.equal, 0, l.length, 0, l.length⟩] := by
  rw [get_opcodes, get_matching_blocks_self]
  by_cases hn : l.length = 0
  · rw [if_pos hn, if_pos hn]
    rfl
  · rw [if_neg hn, if_neg hn, opcodesGo,
      if_neg (by omega : ¬ ((0 : Nat) < 0 ∧ (0 : Nat) < 0))]
    rw [if_neg (by omega : ¬ (0 : Nat) < 0), if_neg (by omega : ¬ (0 : Nat) < 0),
      if_pos hn, opcodesGo]
    rw [if_neg (by omega : ¬ (0 + l.length < l.length ∧ 0 + l.length < l.length))]
    rw [if_neg (by omega : ¬ 0 + l.length < l.length),
      if_neg (by omega : ¬ 0 + l.length < l.length),
      if_neg (by simp : ¬ (0 : Nat) ≠ 0), opcodesGo]
    simp

theorem groupStep_small (n : Nat) (st : List (List Opcode) × List Opcode) (c : Opcode)
    (h : c.i2 - c.i1 ≤ n + n) : groupStep n st c = (st.1, st.2 ++ [c]) := by
  rw [groupStep, if_neg]
  intro hand
  exact absurd hand.2 (Nat.not_lt.2 h)

theorem get_grouped_opcodes_self (l : List String) :
    get_grouped_opcodes l l 2 = [] := by
  rw [get_grouped_opcodes, get_opcodes_self]
  by_cases hn : l.length = 0
  · rw [if_pos hn]
    rfl
  · rw [if_neg hn,
      if_neg (by simp : ¬ ([⟨Tag.equal, 0, l.length, 0, l.length⟩] : List Opcode) = [])]
    rw [fixHead, if_pos rfl]
    simp only [Nat.zero_max]
    have hmin : min l.length (l.length - 2 + 2) = l.length := by omega
    rw [fixTail]
    simp only [List.getLast?_singleton, List.dropLast_single, if_pos rfl, if_true,
      List.nil_append, hmin]
    rw [List.foldl_cons, List.foldl_nil,
      groupStep_small 2 _ _ (by omega : l.length - (l.length - 2) ≤ 2 + 2)]
    simp [isSingleEqual]

theorem unified_diff_self (l : List String) : unified_diff l l = [] := by
  rw [unified_diff, unifiedDiffEntries, get_grouped_opcodes_self]
  rfl

/-! ## Soundness of the grouped opcodes

The grouping fold preserves the opcode-chain invariant over the
concatenation of all closed groups plus the currently open group. -/

theorem groupFold_spec (a b : List String) (n : Nat) :
    ∀ (codes : List Opcode) (st : List (List Opcode) × List Opcode) (ci cj : Nat),
      opChainTo a b 0 0 (st.1.flatten ++ st.2) ci cj →
      opChainTo a b ci cj codes a.length b.length →
      ∃ ci' cj',
        opChainTo a b 0 0
          ((codes.foldl (groupStep n) st).1.flatten ++
            (codes.foldl (groupStep n) st).2) ci' cj' := by
  intro codes
  induction codes with
  | nil =>
    intro st ci cj hinv _
    exact ⟨ci, cj, hinv⟩
  | cons c rest ih =>
    intro st ci cj hinv hchain
    obtain ⟨p1, p2, p3, p4, p5, p6, p7, p8⟩ := hchain
    rw [List.foldl_cons]
    by_cases hs : c.tag = Tag.equal ∧ n + n < c.i2 - c.i1
    · obtain ⟨hlen, hmatch⟩ := p7 hs.1
      have hn2 : n + n < c.i2 - c.i1 := hs.2
      rw [groupStep, if_pos hs]
      refine ih _ c.i2 c.j2 ?_ p8
      have h1 := opChainTo_snoc a b (st.1.flatten ++ st.2) 0 0 ci cj
        ⟨Tag.equal, c.i1, min c.i2 (c.i1 + n), c.j1, min c.j2 (c.j1 + n)⟩ hinv
        p1 (by show c.i1 ≤ min c.i2 (c.i1 + n); omega)
        (by show min c.i2 (c.i1 + n) ≤ a.length; omega)
        p4 (by show c.j1 ≤ min c.j2 (c.j1 + n); omega)
        (by show min c.j2 (c.j1 + n) ≤ b.length; omega)
        (fun _ => ⟨by show min c.i2 (c.i1 + n) - c.i1 = min c.j2 (c.j1 + n) - c.j1; omega,
          fun t ht => by
            have ht' : t < min c.i2 (c.i1 + n) - c.i1 := ht
            show a.getD (c.i1 + t) "" = b.getD (c.j1 + t) ""
            exact hmatch t (by omega)⟩)
      have h1' : opChainTo a b 0 0 ((st.1.flatten ++ st.2) ++
          [(⟨Tag.equal, c.i1, min c.i2 (c.i1 + n), c.j1, min c.j2 (c.j1 + n)⟩ : Opcode)])
          (min c.i2 (c.i1 + n)) (min c.j2 (c.j1 + n)) := h1
      have h2 := opChainTo_snoc a b
        ((st.1.flatten ++ st.2) ++
          [(⟨Tag.equal, c.i1, min c.i2 (c.i1 + n), c.j1, min c.j2 (c.j1 + n)⟩ : Opcode)])
        0 0 (min c.i2 (c.i1 + n)) (min c.j2 (c.j1 + n))
        ⟨Tag.equal, max c.i1 (c.i2 - n), c.i2, max c.j1 (c.j2 - n), c.j2⟩ h1'
        (by show min c.i2 (c.i1 + n) ≤ max c.i1 (c.i2 - n); omega)
        (by show max c.i1 (c.i2 - n) ≤ c.i2; omega)
        p3
        (by show min c.j2 (c.j1 + n) ≤ max c.j1 (c.j2 - n); omega)
        (by show max c.j1 (c.j2 - n) ≤ c.j2; omega)
        p6
        (fun _ => ⟨by show c.i2 - max c.i1 (c.i2 - n) = c.j2 - max c.j1 (c.j2 - n); omega,
          fun t ht => by
            have ht' : t < c.i2 - max c.i1 (c.i2 - n) := ht
            show a.getD (max c.i1 (c.i2 - n) + t) "" = b.getD (max c.j1 (c.j2 - n) + t) ""
            have e1 : max c.i1 (c.i2 - n) + t = c.i1 + (max c.i1 (c.i2 - n) - c.i1 + t) := by
              omega
            have e2 : max c.j1 (c.j2 - n) + t = c.j1 + (max c.i1 (c.i2 - n) - c.i1 + t) := by
              omega
            rw [e1, e2]
            exact hmatch _ (by omega)⟩)
      show opChainTo a b 0 0
        ((st.1 ++ [st.2 ++
            [(⟨Tag.equal, c.i1, min c.i2 (c.i1 + n), c.j1, min c.j2 (c.j1 + n)⟩ : Opcode)]]).flatten ++
          [(⟨Tag.equal, max c.i1 (c.i2 - n), c.i2, max c.j1 (c.j2 - n), c.j2⟩ : Opcode)])
        c.i2 c.j2
      have hls : (st.1 ++ [st.2 ++
            [(⟨Tag.equal, c.i1, min c.i2 (c.i1 + n), c.j1, min c.j2 (c.j1 + n)⟩ : Opcode)]]).flatten ++
          [(⟨Tag.equal, max c.i1 (c.i2 - n), c.i2, max c.j1 (c.j2 - n), c.j2⟩ : Opcode)] =
          ((st.1.flatten ++ st.2) ++
            [(⟨Tag.equal, c.i1, min c.i2 (c.i1 + n), c.j1, min c.j2 (c.j1 + n)⟩ : Opcode)]) ++
          [(⟨Tag.equal, max c.i1 (c.i2 - n), c.i2, max c.j1 (c.j2 - n), c.j2⟩ : Opcode)] := by
        simp [List.flatten_append]
      rw [hls]
      exact h2
    · rw [groupStep, if_neg hs]
      refine ih _ c.i2 c.j2 ?_ p8
      have h1 := opChainTo_snoc a b (st.1.flatten ++ st.2) 0 0 ci cj c hinv
        p1 p2 p3 p4 p5 p6 p7
      show opChainTo a b 0 0 (st.1.flatten ++ (st.2 ++ [c])) c.i2 c.j2
      rw [← List.append_assoc]
      exact h1

theorem get_grouped_opcodes_spec (a b : List String) :
    ∃ ci cj, opChainTo a b 0 0 ((get_grouped_opcodes a b 2).flatten) ci cj := by
  simp only [get_grouped_opcodes]
  by_cases h0 : get_opcodes a b = []
  · rw [if_pos h0]
    refine ⟨0, 0, ?_⟩
    show (0 : Nat) ≤ 0 ∧ (0 : Nat) ≤ 0
    exact ⟨Nat.le_refl 0, Nat.le_refl 0⟩
  · rw [if_neg h0]
    have hchain := fixTail_spec a b 2 (fixHead 2 (get_opcodes a b)) 0 0 a.length b.length
      (fixHead_spec a b 2 (get_opcodes a b) a.length b.length (get_opcodes_spec a b))
    obtain ⟨ci, cj, hc⟩ := groupFold_spec a b 2 (fixTail 2 (fixHead 2 (get_opcodes a b)))
      ([], []) 0 0 (by exact ⟨Nat.le_refl 0, Nat.le_refl 0⟩) hchain
    set st := List.foldl (groupStep 2) ([], []) (fixTail 2 (fixHead 2 (get_opcodes a b)))
      with hst
    by_cases hif : st.2 ≠ [] ∧ isSingleEqual st.2 = false
    · rw [if_pos hif]
      refine ⟨ci, cj, ?_⟩
      have hfl : (st.1 ++ [st.2]).flatten = st.1.flatten ++ st.2 := by
        simp
      rw [hfl]
      exact hc
    · rw [if_neg hif]
      refine ⟨ci, cj, ?_⟩
      have hfl : (st.1 ++ ([] : List (List Opcode))).flatten = st.1.flatten := by
        simp
      rw [hfl]
      exact opChainTo_append_left a b st.1.flatten st.2 0 0 ci cj hc

/-! ## Slices of a chained opcode list are sublists of the inputs -/

theorem listSlice_eq_of_match (a b : List String) (i1 i2 j1 j2 : Nat)
    (h2 : i2 ≤ a.length) (h4 : j2 ≤ b.length)
    (hlen : i2 - i1 = j2 - j1)
    (hm : ∀ t, t < i2 - i1 → a.getD (i1 + t) "" = b.getD (j1 + t) "") :
    listSlice a i1 i2 = listSlice b j1 j2 := by
  apply List.ext_getElem
  · rw [listSlice, listSlice, List.length_take, List.length_take,
      List.length_drop, List.length_drop]
    omega
  · intro k hk1 hk2
    have hk : k < i2 - i1 := by
      have h := hk1
      rw [listSlice, List.length_take, List.length_drop] at h
      omega
    have hia : i1 + k < a.length := by omega
    have hjb : j1 + k < b.length := by omega
    simp only [listSlice, List.getElem_take, List.getElem_drop]
    rw [← List.getD_eq_getElem a "" hia, ← List.getD_eq_getElem b "" hjb]
    exact hm k hk

theorem opASlice_flatten_sublist (a b : List String) :
    ∀ (L : List Opcode) (ci cj hi hj : Nat),
      opChainTo a b ci cj L hi hj →
      List.Sublist ((L.map (opASlice a)).flatten) (a.drop ci) := by
  intro L
  induction L with
  | nil =>
    intro ci cj hi hj _
    exact List.nil_sublist _
  | cons c tl ih =>
    intro ci cj hi hj h
    obtain ⟨p1, p2, p3, p4, p5, p6, p7, p8⟩ := h
    rw [List.map_cons, List.flatten_cons]
    have hrest := ih c.i2 c.j2 hi hj p8
    have hdrop1 : List.Sublist (a.drop c.i1) (a.drop ci) :=
      List.drop_sublist_drop_left a p1
    have hdrop2 : List.Sublist (a.drop c.i2) (a.drop ci) :=
      List.drop_sublist_drop_left a (Nat.le_trans p1 p2)
    have hsplit : a.drop c.i1 = listSlice a c.i1 c.i2 ++ a.drop c.i2 := by
      rw [listSlice]
      have hd : a.drop c.i2 = (a.drop c.i1).drop (c.i2 - c.i1) := by
        rw [List.drop_drop]
        congr 1
        omega
      rw [hd, List.take_append_drop]
    have hstep : List.Sublist (listSlice a c.i1 c.i2 ++ (tl.map (opASlice a)).flatten)
        (a.drop ci) := by
      refine List.Sublist.trans ?_ hdrop1
      rw [hsplit]
      exact List.Sublist.append_left hrest _
    cases htag : c.tag with
    | equal =>
      have hA : opASlice a c = listSlice a c.i1 c.i2 := by
        rw [opASlice, htag]
      rw [hA]
      exact hstep
    | replace =>
      have hA : opASlice a c = listSlice a c.i1 c.i2 := by
        rw [opASlice, htag]
      rw [hA]
      exact hstep
    | delete =>
      have hA : opASlice a c = listSlice a c.i1 c.i2 := by
        rw [opASlice, htag]
      rw [hA]
      exact hstep
    | insert =>
      have hA : opASlice a c = [] := by
        rw [opASlice, htag]
      rw [hA, List.nil_append]
      exact List.Sublist.trans hrest hdrop2

theorem opBPayload_flatten_sublist (a b : List String) :
    ∀ (L : List Opcode) (ci cj hi hj : Nat),
      opChainTo a b ci cj L hi hj →
      List.Sublist ((L.map (opBPayload a b)).flatten) (b.drop cj) := by
  intro L
  induction L with
  | nil =>
    intro ci cj hi hj _
    exact List.nil_sublist _
  | cons c tl ih =>
    intro ci cj hi hj h
    obtain ⟨p1, p2, p3, p4, p5, p6, p7, p8⟩ := h
    rw [List.map_cons, List.flatten_cons]
    have hrest := ih c.i2 c.j2 hi hj p8
    have hdrop1 : List.Sublist (b.drop c.j1) (b.drop cj) :=
      List.drop_sublist_drop_left b p4
    have hdrop2 : List.Sublist (b.drop c.j2) (b.drop cj) :=
      List.drop_sublist_drop_left b (Nat.le_trans p4 p5)
    have hsplit : b.drop c.j1 = listSlice b c.j1 c.j2 ++ b.drop c.j2 := by
      rw [listSlice]
      have hd : b.drop c.j2 = (b.drop c.j1).drop (c.j2 - c.j1) := by
        rw [List.drop_drop]
        congr 1
        omega
      rw [hd, List.take_append_drop]
    have hstep : List.Sublist (listSlice b c.j1 c.j2 ++ (tl.map (opBPayload a b)).flatten)
        (b.drop cj) := by
      refine List.Sublist.trans ?_ hdrop1
      rw [hsplit]
      exact List.Sublist.append_left hrest _
    cases htag : c.tag with
    | equal =>
      obtain ⟨hlen, hmatch⟩ := p7 htag
      have hA : opBPayload a b c = listSlice b c.j1 c.j2 := by
        rw [opBPayload, htag]
        exact listSlice_eq_of_match a b c.i1 c.i2 c.j1 c.j2 p3 p6 hlen hmatch
      rw [hA]
      exact hstep
    | replace =>
      have hA : opBPayload a b c = listSlice b c.j1 c.j2 := by
        rw [opBPayload, htag]
      rw [hA]
      exact hstep
    | insert =>
      have hA : opBPayload a b c = listSlice b c.j1 c.j2 := by
        rw [opBPayload, htag]
      rw [hA]
      exact hstep
    | delete =>
      have hA : opBPayload a b c = [] := by
        rw [opBPayload, htag]
      rw [hA, List.nil_append]
      exact List.Sublist.trans hrest hdrop2

/-! ## From entries to opcode payloads -/

theorem flattenMapPayload (p : Role × String → List String) (g : String → Role × String)
    (hpg : ∀ t, p (g t) = [t]) :
    ∀ (l : List String), ((l.map g).map p).flatten = l := by
  intro l
  induction l with
  | nil => rfl
  | cons x xs ih =>
    rw [List.map_cons, List.map_cons, List.flatten_cons, hpg, ih]
    rfl

theorem flattenMapPayloadNil (p : Role × String → List String) (g : String → Role × String)
    (hpg : ∀ t, p (g t) = []) :
    ∀ (l : List String), ((l.map g).map p).flatten = [] := by
  intro l
  induction l with
  | nil => rfl
  | cons x xs ih =>
    rw [List.map_cons, List.map_cons, List.flatten_cons, hpg, ih]
    rfl

theorem opEntries_aPayload (a b : List String) (c : Opcode) :
    ((opEntries a b c).map entryAPayload).flatten = opASlice a c := by
  cases htag : c.tag with
  | equal =>
    simp only [opEntries, opASlice, htag]
    exact flattenMapPayload entryAPayload (fun t => (Role.context, t)) (fun t => rfl) _
  | replace =>
    simp only [opEntries, opASlice, htag]
    rw [List.map_append, List.flatten_append,
      flattenMapPayload entryAPayload (fun t => (Role.removed, t)) (fun t => rfl),
      flattenMapPayloadNil entryAPayload (fun t => (Role.added, t)) (fun t => rfl),
      List.append_nil]
  | delete =>
    simp only [opEntries, opASlice, htag]
    exact flattenMapPayload entryAPayload (fun t => (Role.removed, t)) (fun t => rfl) _
  | insert =>
    simp only [opEntries, opASlice, htag]
    exact flattenMapPayloadNil entryAPayload (fun t => (Role.added, t)) (fun t => rfl) _

theorem opEntries_bPayload (a b : List String) (c : Opcode) :
    ((opEntries a b c).map entryBPayload).flatten = opBPayload a b c := by
  cases htag : c.tag with
  | equal =>
    simp only [opEntries, opBPayload, htag]
    exact flattenMapPayload entryBPayload (fun t => (Role.context, t)) (fun t => rfl) _
  | replace =>
    simp only [opEntries, opBPayload, htag]
    rw [List.map_append, List.flatten_append,
      flattenMapPayloadNil entryBPayload (fun t => (Role.removed, t)) (fun t => rfl),
      flattenMapPayload entryBPayload (fun t => (Role.added, t)) (fun t => rfl),
      List.nil_append]
  | delete =>
    simp only [opEntries, opBPayload, htag]
    exact flattenMapPayloadNil entryBPayload (fun t => (Role.removed, t)) (fun t => rfl) _
  | insert =>
    simp only [opEntries, opBPayload, htag]
    exact flattenMapPayload entryBPayload (fun t => (Role.added, t)) (fun t => rfl) _

theorem groupOpsPayload (a b : List String) (p : Role × String → List String)
    (q : Opcode → List String)
    (hop : ∀ c, ((opEntries a b c).map p).flatten = q c) :
    ∀ (g : List Opcode),
      (((g.map (opEntries a b)).flatten).map p).flatten = (g.map q).flatten := by
  intro g
  induction g with
  | nil => rfl
  | cons c tl ih =>
    rw [List.map_cons, List.flatten_cons, List.map_append, List.flatten_append, ih,
      List.map_cons, List.flatten_cons, hop]

theorem groupEntriesPayload (a b : List String) (p : Role × String → List String)
    (q : Opcode → List String)
    (hhunk : ∀ g : List Opcode, p (Role.hunk, hunkHeader g) = [])
    (hop : ∀ c, ((opEntries a b c).map p).flatten = q c) (g : List Opcode) :
    ((groupEntries a b g).map p).flatten = (g.map q).flatten := by
  rw [groupEntries, List.map_cons, List.flatten_cons, hhunk, List.nil_append]
  exact groupOpsPayload a b p q hop g

theorem groupsPayload (a b : List String) (p : Role × String → List String)
    (q : Opcode → List String)
    (hhunk : ∀ g : List Opcode, p (Role.hunk, hunkHeader g) = [])
    (hop : ∀ c, ((opEntries a b c).map p).flatten = q c) :
    ∀ (gs : List (List Opcode)),
      (((gs.map (groupEntries a b)).flatten).map p).flatten =
        ((gs.flatten).map q).flatten := by
  intro gs
  induction gs with
  | nil => rfl
  | cons g tl ih =>
    rw [List.map_cons, List.flatten_cons, List.map_append, List.flatten_append, ih,
      groupEntriesPayload a b p q hhunk hop g, List.flatten_cons, List.map_append,
      List.flatten_append]

theorem entriesA_flatten (a b : List String) :
    ((unifiedDiffEntries a b).map entryAPayload).flatten =
      (((get_grouped_opcodes a b 2).flatten).map (opASlice a)).flatten := by
  simp only [unifiedDiffEntries]
  by_cases hg : get_grouped_opcodes a b 2 = []
  · rw [if_pos hg, hg]
    rfl
  · rw [if_neg hg, List.map_cons, List.map_cons, List.flatten_cons, List.flatten_cons]
    have hh : ∀ t : String, entryAPayload (Role.header, t) = [] := fun t => rfl
    rw [hh, hh, List.nil_append, List.nil_append]
    exact groupsPayload a b entryAPayload (opASlice a) (fun g => rfl)
      (opEntries_aPayload a b) (get_grouped_opcodes a b 2)

theorem entriesB_flatten (a b : List String) :
    ((unifiedDiffEntries a b).map entryBPayload).flatten =
      (((get_grouped_opcodes a b 2).flatten).map (opBPayload a b)).flatten := by
  simp only [unifiedDiffEntries]
  by_cases hg : get_grouped_opcodes a b 2 = []
  · rw [if_pos hg, hg]
    rfl
  · rw [if_neg hg, List.map_cons, List.map_cons, List.flatten_cons, List.flatten_cons]
    have hh : ∀ t : String, entryBPayload (Role.header, t) = [] := fun t => rfl
    rw [hh, hh, List.nil_append, List.nil_append]
    exact groupsPayload a b entryBPayload (opBPayload a b) (fun g => rfl)
      (opEntries_bPayload a b) (get_grouped_opcodes a b 2)

/-! ## The classified segments select a subsequence of the entry payloads -/

theorem segTextsA_sublist :
    ∀ (es : List (Role × String)),
      List.Sublist
        (segTexts [SegKind.unchanged, SegKind.removed] (es.filterMap entrySegment))
        ((es.map entryAPayload).flatten) := by
  intro es
  induction es with
  | nil => exact List.nil_sublist _
  | cons e tl ih =>
    obtain ⟨r, t⟩ := e
    rw [List.map_cons, List.flatten_cons]
    cases r with
    | header =>
      rw [List.filterMap_cons_none (show entrySegment (Role.header, t) = none from rfl)]
      exact ih
    | hunk =>
      rw [List.filterMap_cons_none (show entrySegment (Role.hunk, t) = none from rfl)]
      exact ih
    | removed =>
      by_cases hst : pyStartsWith t "--" = true
      · have hnone : entrySegment (Role.removed, t) = none := by
          simp [entrySegment, hst]
        rw [List.filterMap_cons_none hnone]
        exact List.Sublist.cons t ih
      · have hsome : entrySegment (Role.removed, t) = some ⟨SegKind.removed, t⟩ := by
          simp [entrySegment, hst]
        rw [List.filterMap_cons_some hsome]
        exact List.Sublist.cons₂ t ih
    | added =>
      by_cases hst : pyStartsWith t "++" = true
      · have hnone : entrySegment (Role.added, t) = none := by
          simp [entrySegment, hst]
        rw [List.filterMap_cons_none hnone]
        exact ih
      · have hsome : entrySegment (Role.added, t) = some ⟨SegKind.added, t⟩ := by
          simp [entrySegment, hst]
        rw [List.filterMap_cons_some hsome]
        exact ih
    | context =>
      rw [List.filterMap_cons_some
        (show entrySegment (Role.context, t) = some ⟨SegKind.unchanged, t⟩ from rfl)]
      exact List.Sublist.cons₂ t ih

theorem segTextsB_sublist :
    ∀ (es : List (Role × String)),
      List.Sublist
        (segTexts [SegKind.unchanged, SegKind.added] (es.filterMap entrySegment))
        ((es.map entryBPayload).flatten) := by
  intro es
  induction es with
  | nil => exact List.nil_sublist _
  | cons e tl ih =>
    obtain ⟨r, t⟩ := e
    rw [List.map_cons, List.flatten_cons]
    cases r with
    | header =>
      rw [List.filterMap_cons_none (show entrySegment (Role.header, t) = none from rfl)]
      exact ih
    | hunk =>
      rw [List.filterMap_cons_none (show entrySegment (Role.hunk, t) = none from rfl)]
      exact ih
    | removed =>
      by_cases hst : pyStartsWith t "--" = true
      · have hnone : entrySegment (Role.removed, t) = none := by
          simp [entrySegment, hst]
        rw [List.filterMap_cons_none hnone]
        exact ih
      · have hsome : entrySegment (Role.removed, t) = some ⟨SegKind.removed, t⟩ := by
          simp [entrySegment, hst]
        rw [List.filterMap_cons_some hsome]
        exact ih
    | added =>
      by_cases hst : pyStartsWith t "++" = true
      · have hnone : entrySegment (Role.added, t) = none := by
          simp [entrySegment, hst]
        rw [List.filterMap_cons_none hnone]
        exact List.Sublist.cons t ih
      · have hsome : entrySegment (Role.added, t) = some ⟨SegKind.added, t⟩ := by
          simp [entrySegment, hst]
        rw [List.filterMap_cons_some hsome]
        exact List.Sublist.cons₂ t ih
    | context =>
      rw [List.filterMap_cons_some
        (show entrySegment (Role.context, t) = some ⟨SegKind.unchanged, t⟩ from rfl)]
      exact List.Sublist.cons₂ t ih

theorem reconstructA_sublist (a b : List String) :
    List.Sublist
      (segTexts [SegKind.unchanged, SegKind.removed]
        ((unified_diff a b).filterMap classifyLine)) a := by
  have hseg : (unified_diff a b).filterMap classifyLine =
      (unifiedDiffEntries a b).filterMap entrySegment := by
    rw [unified_diff]
    exact filterMap_classify _ (unifiedDiffEntries_wf _ _)
  rw [hseg]
  obtain ⟨ci, cj, hchain⟩ := get_grouped_opcodes_spec a b
  have h1 := segTextsA_sublist (unifiedDiffEntries a b)
  rw [entriesA_flatten a b] at h1
  have h3 := opASlice_flatten_sublist a b
    ((get_grouped_opcodes a b 2).flatten) 0 0 ci cj hchain
  rw [List.drop_zero] at h3
  exact List.Sublist.trans h1 h3

theorem reconstructB_sublist (a b : List String) :
    List.Sublist
      (segTexts [SegKind.unchanged, SegKind.added]
        ((unified_diff a b).filterMap classifyLine)) b := by
  have hseg : (unified_diff a b).filterMap classifyLine =
      (unifiedDiffEntries a b).filterMap entrySegment := by
    rw [unified_diff]
    exact filterMap_classify _ (unifiedDiffEntries_wf _ _)
  rw [hseg]
  obtain ⟨ci, cj, hchain⟩ := get_grouped_opcodes_spec a b
  have h1 := segTextsB_sublist (unifiedDiffEntries a b)
  rw [entriesB_flatten a b] at h1
  have h3 := opBPayload_flatten_sublist a b
    ((get_grouped_opcodes a b 2).flatten) 0 0 ci cj hchain
  rw [List.drop_zero] at h3
  exact List.Sublist.trans h1 h3

/-! ## Claims -/

/-- C2, counterexample: the claim says a filename-suffix match decides
before the media type is consulted.  For filename `report.pdf` with the
docx media type, the suffix `.pdf` matches, yet the code resolves to docx:
the code tries the docx test (suffix or media type) before the pdf test,
so the media-type signature overrides the other format's suffix. -/
theorem c2_counterexample :
    detectFormat (some "report.pdf")
        (some "application/vnd.openxmlformats-officedocument.wordprocessingml.document") =
      some Fmt.docx ∧
    detectFormatSpec (some "report.pdf")
        (some "application/vnd.openxmlformats-officedocument.wordprocessingml.document") =
      some Fmt.pdf ∧
    pyEndsWith (pyLower "report.pdf") ".pdf" = true ∧
    some Fmt.docx ≠ some Fmt.pdf := by
  decide

/-- C2, amended: detection resolves by format priority, not suffix
priority: the docx condition (suffix `.docx` on the lowercased filename,
or the docx signature occurring in the lowercased media type) is decided
first; the pdf condition (suffix `.pdf` or `"pdf"` in the media type) is
consulted only when the docx condition fails — even if the pdf suffix
matches, a docx media type wins; if neither condition holds, detection
fails. -/
theorem c2_detection_priority (filename content_type : Option String) :
    (detectFormat filename content_type = some Fmt.docx ↔
      (pyEndsWith (pyLower (filename.getD "")) ".docx" = true ∨
       pyContains (pyLower (content_type.getD "")) "wordprocessingml.document" = true)) ∧
    (detectFormat filename content_type = some Fmt.pdf ↔
      (pyEndsWith (pyLower (filename.getD "")) ".docx" = false ∧
       pyContains (pyLower (content_type.getD "")) "wordprocessingml.document" = false ∧
       (pyEndsWith (pyLower (filename.getD "")) ".pdf" = true ∨
        pyContains (pyLower (content_type.getD "")) "pdf" = true))) ∧
    (detectFormat filename content_type = none ↔
      (pyEndsWith (pyLower (filename.getD "")) ".docx" = false ∧
       pyContains (pyLower (content_type.getD "")) "wordprocessingml.document" = false ∧
       pyEndsWith (pyLower (filename.getD "")) ".pdf" = false ∧
       pyContains (pyLower (content_type.getD "")) "pdf" = false)) := by
  cases h1 : pyEndsWith (pyLower (filename.getD "")) ".docx" <;>
    cases h2 : pyContains (pyLower (content_type.getD "")) "wordprocessingml.document" <;>
      cases h3 : pyEndsWith (pyLower (filename.getD "")) ".pdf" <;>
        cases h4 : pyContains (pyLower (content_type.getD "")) "pdf" <;>
          simp [detectFormat, h1, h2, h3, h4]

/-- C6: format detection on the three scenario-C inputs: `report.pdf` with
no media type resolves to pdf; `report` with media type `application/pdf`
resolves to pdf; `report.txt` with no media type is not detected and
`extract_text` fails with the unsupported-format `ValueError`. -/
theorem c6_detection_scenarios :
    detectFormat (some "report.pdf") none = some Fmt.pdf ∧
    detectFormat (some "report") (some "application/pdf") = some Fmt.pdf ∧
    detectFormat (some "report.txt") none = none ∧
    extract_text ⟨some "report.txt", none, .ok [], .ok []⟩ =
      .error (.valueError "Unsupported file type: report.txt") := by
  decide

/-- C7: for original text `"Hello world"` and final text
`"Hello brave world"` the Diff Segment sequence is exactly one Removed
segment with the whole original line and one Added segment with the whole
final line, and the pipeline reports word counts 2 and 3 with
word_difference +1. -/
theorem c7_scenario_a :
    diffSegments "Hello world" "Hello brave world" =
      [⟨SegKind.removed, "Hello world"⟩, ⟨SegKind.added, "Hello brave world"⟩] ∧
    compare_documents ⟨some "original.docx", none, .ok ["Hello world"], .ok []⟩
        ⟨some "final.docx", none, .ok ["Hello brave world"], .ok []⟩ =
      .success (generate_email_friendly_diff "Hello world" "Hello brave world") 2 3 1 := by
  decide

/-- C10: a concrete differing pair for which a removed line is silently
omitted: the removed line `--draft` renders as the diff line `---draft`,
which the classifier's header filter skips, so no Removed segment carries
it; here nothing else counts as a change either, so the rendered report
even shows the "no changes" message for differing documents. -/
theorem c10_removed_line_silently_dropped :
    "--draft\ncommon" ≠ "common" ∧
    "--draft" ∈ pySplitLines "--draft\ncommon" ∧
    (∀ s ∈ diffSegments "--draft\ncommon" "common", s.kind ≠ SegKind.removed) ∧
    (∀ s ∈ diffSegments "--draft\ncommon" "common", s.text ≠ "--draft") ∧
    generate_email_friendly_diff "--draft\ncommon" "common" =
      String.intercalate "\n" [htmlHeader, contextDiv "common", noChangesP, "</div>"] := by
  decide

/-- C9: the pipeline is a pure function of its two inputs: on byte-identical
input pairs it returns identical responses — the same markup and the same
statistics. -/
theorem c9_determinism (o1 f1 o2 f2 : FileStorage) (h1 : o1 = o2) (h2 : f1 = f2) :
    compare_documents o1 f1 = compare_documents o2 f2 := by
  rw [h1, h2]

/-- Witness for C9 at a concrete input pair. -/
theorem c9_determinism_witness :
    compare_documents ⟨some "a.docx", none, .ok ["x"], .ok []⟩
        ⟨some "b.docx", none, .ok ["y"], .ok []⟩ =
      compare_documents ⟨some "a.docx", none, .ok ["x"], .ok []⟩
        ⟨some "b.docx", none, .ok ["y"], .ok []⟩ :=
  c9_determinism _ _ _ _ rfl rfl

/-- C5: whenever both extractions succeed, the response carries
`original_word_count` and `final_word_count` computed as the number of
whitespace-split tokens of the two full normalized texts, and
`word_difference` is exactly their signed difference. -/
theorem c5_word_stats (o f : FileStorage) (ot ft : String)
    (ho : extract_text o = .ok ot) (hf : extract_text f = .ok ft) :
    compare_documents o f =
      .success (generate_email_friendly_diff ot ft) (pySplit ot).length (pySplit ft).length
        (((pySplit ft).length : Int) - ((pySplit ot).length : Int)) := by
  simp [compare_documents, comparePipeline, ho, hf, Bind.bind, Except.bind, pure, Except.pure]

/-- Witness for C5 on two empty documents (empty texts: counts 0, 0 and
difference 0). -/
theorem c5_word_stats_witness :
    compare_documents ⟨some "a.docx", none, .ok [], .ok []⟩
        ⟨some "b.docx", none, .ok [], .ok []⟩ =
      .success (generate_email_friendly_diff "" "") (pySplit "").length (pySplit "").length
        (((pySplit "").length : Int) - ((pySplit "").length : Int)) :=
  c5_word_stats _ _ "" "" (by decide) (by decide)

/-- C4: a buffer whose format is recognized but whose parse fails makes the
pipeline fail with the generic-exception (HTTP 500) response carrying the
parse failure, which is distinguishable from the unsupported-format
(`ValueError`, HTTP 400) response; and every outcome of the pipeline is
either success or one of those two tagged failures. -/
theorem c4_error_taxonomy (o f : FileStorage) (fmt : Fmt) (e : String)
    (hdet : detectFormat o.filename o.content_type = some fmt)
    (hparse : parseOutcome o fmt = .error e) :
    compare_documents o f = .serverError e ∧
    (∀ m, (Response.serverError e) ≠ Response.clientError m) ∧
    (∀ o' f' : FileStorage,
      (∃ h ow fw wd, compare_documents o' f' = .success h ow fw wd) ∨
      (∃ m, compare_documents o' f' = .clientError m) ∨
      (∃ m, compare_documents o' f' = .serverError m)) := by
  refine ⟨?_, ?_, ?_⟩
  · cases fmt <;>
      simp_all [compare_documents, comparePipeline, extract_text, parseOutcome,
        extract_text_from_docx, extract_text_from_pdf, Bind.bind, Except.bind]
  · intro m h
    exact Response.noConfusion h
  · intro o' f'
    cases hr : compare_documents o' f' with
    | success hm ow fw wd => exact Or.inl ⟨hm, ow, fw, wd, rfl⟩
    | clientError m => exact Or.inr (Or.inl ⟨m, rfl⟩)
    | serverError m => exact Or.inr (Or.inr ⟨m, rfl⟩)

/-- Witness for C4: a docx-named buffer whose docx parse fails. -/
theorem c4_error_taxonomy_witness :
    compare_documents ⟨some "a.docx", none, .error "bad zip header", .ok []⟩
        ⟨some "b.docx", none, .ok [], .ok []⟩ = .serverError "bad zip header" ∧
    (∀ m, (Response.serverError "bad zip header") ≠ Response.clientError m) ∧
    (∀ o' f' : FileStorage,
      (∃ h ow fw wd, compare_documents o' f' = .success h ow fw wd) ∨
      (∃ m, compare_documents o' f' = .clientError m) ∨
      (∃ m, compare_documents o' f' = .serverError m)) :=
  c4_error_taxonomy ⟨some "a.docx", none, .error "bad zip header", .ok []⟩
    ⟨some "b.docx", none, .ok [], .ok []⟩ Fmt.docx "bad zip header" (by decide) (by decide)

/-- C3: for every pair of identical normalized texts the Diff Segment
sequence is empty, the rendered report is exactly the wrapper with the
explicit "no changes" indicator, and the word-difference statistic
(final count minus original count) is zero. -/
theorem c3_identical_texts (t : String) :
    diffSegments t t = [] ∧
    generate_email_friendly_diff t t = noChangesHtml ∧
    ((pySplit t).length : Int) - ((pySplit t).length : Int) = 0 := by
  refine ⟨?_, ?_, by omega⟩
  · rw [diffSegments, unified_diff_self]
    rfl
  · rw [generate_email_friendly_diff]
    simp only [unified_diff_self]
    decide

/-- C8: the diff-script lines are exactly the rendered entries of the
structured edit script, and the classifier's segment sequence is exactly
the entry sequence filtered through `entrySegment` — so segments arise
only from removed / added / context entries, never from the `--- ` /
`+++ ` file headers or the `@@` hunk headers, and every emitted segment
carries the entry payload, i.e. the diff line with exactly its single
leading marker character removed and all other whitespace intact. -/
theorem c8_classifier_soundness (original_text final_text : String) :
    unified_diff (pySplitLines original_text) (pySplitLines final_text) =
      (unifiedDiffEntries (pySplitLines original_text) (pySplitLines final_text)).map
        renderEntry ∧
    diffSegments original_text final_text =
      (unifiedDiffEntries (pySplitLines original_text) (pySplitLines final_text)).filterMap
        entrySegment :=
  ⟨rfl, filterMap_classify _ (unifiedDiffEntries_wf _ _)⟩

/-- C1, counterexample: the reconstruction property fails as stated.  For
an eight-line original whose last line changes, the context radius (2)
elides the first five unchanged lines from the diff, so the
`{Unchanged, Removed}` segment texts are only `["f", "g", "h"]` — not the
original Line Sequence. -/
theorem c1_counterexample :
    segTexts [SegKind.unchanged, SegKind.removed]
        (diffSegments "a\nb\nc\nd\ne\nf\ng\nh" "a\nb\nc\nd\ne\nf\ng\nH") =
      ["f", "g", "h"] ∧
    pySplitLines "a\nb\nc\nd\ne\nf\ng\nh" = ["a", "b", "c", "d", "e", "f", "g", "h"] ∧
    ¬ (segTexts [SegKind.unchanged, SegKind.removed]
        (diffSegments "a\nb\nc\nd\ne\nf\ng\nh" "a\nb\nc\nd\ne\nf\ng\nH") =
      pySplitLines "a\nb\nc\nd\ne\nf\ng\nh") := by
  decide

/-- C1, amended: the reconstruction holds as an order-preserving
selection rather than an exact reconstruction.  Filtering the Diff
Segment sequence to kinds Unchanged and Removed and extracting the texts
yields a sublist of the original Line Sequence, and filtering to
Unchanged and Added yields a sublist of the final Line Sequence: lines
are never reordered or duplicated, but lines may be dropped — unchanged
lines beyond the context radius by hunk elision, and removed (added)
lines whose content begins with two dashes (two pluses) by the header-skip
filter. -/
theorem c1_reconstruction_sublist (original_text final_text : String) :
    List.Sublist
      (segTexts [SegKind.unchanged, SegKind.removed]
        (diffSegments original_text final_text))
      (pySplitLines original_text) ∧
    List.Sublist
      (segTexts [SegKind.unchanged, SegKind.added]
        (diffSegments original_text final_text))
      (pySplitLines final_text) :=
  ⟨reconstructA_sublist (pySplitLines original_text) (pySplitLines final_text),
   reconstructB_sublist (pySplitLines original_text) (pySplitLines final_text)⟩

end WordCompare
